import Mathlib

/-!
# Wavelet matrix (package `wavelettree`)

A shallow embedding of `waveletTree.go`, `waveletMatrixBuilder.go` and
`waveletMatrix.go`, followed by the properties proved about it.

* `uint64` values are natural numbers; every arithmetic operation of the source
  is reduced modulo `2 ^ 64` (`add64`, `sub64`, `shl64`).
* An operation that panics in Go (a slice index out of range) or that the
  bit dictionary reports as out of range yields `none`.
* `for depth := 0; depth < blen; depth++` loops are recursions on the number of
  iterations left, carrying the loop variable `depth` explicitly.
* A Go slice holds fewer than `2 ^ 63` elements; the theorems about a pushed
  sequence `T` carry the hypothesis `T.length < 2 ^ 64`.
-/

namespace wavelettree

/-! ## Machine arithmetic -/

/-- The number of `uint64` values. -/
def two64 : Nat := 2 ^ 64

/-- Wrapping `uint64` addition. -/
def add64 (a b : Nat) : Nat := (a + b) % two64

/-- Wrapping `uint64` subtraction. -/
def sub64 (a b : Nat) : Nat := (a + (two64 - b % two64)) % two64

/-- The `uint64` shift `a << k`. -/
def shl64 (a k : Nat) : Nat := (a <<< k) % two64

/-! ## The rank/select bit dictionary -/

/-- Modelled from the spec: the rank/select bit dictionary `rsdic.RSDic`, which
lives in the external package `github.com/hillbig/rsdic` and is not part of the
sources. It is the immutable bit sequence `B[0..m)` of section 3 of the
specification. -/
structure RSDic where
  bits : List Bool
  deriving DecidableEq, Repr

namespace RSDic

/-- Modelled from the spec: `rsdic.New()`, the empty dictionary. -/
def New : RSDic := ⟨[]⟩

/-- Modelled from the spec: `push_back(b)`, append-only construction. -/
def PushBack (rs : RSDic) (b : Bool) : RSDic := ⟨rs.bits ++ [b]⟩

/-- Modelled from the spec: `len()`, the number `m` of bits. -/
def Num (rs : RSDic) : Nat := rs.bits.length

/-- Modelled from the spec: `zero_num()`, the count `n₀` of zeros. -/
def ZeroNum (rs : RSDic) : Nat := rs.bits.count false

/-- Modelled from the spec: `one_num()`, the count `n₁` of ones. -/
def OneNum (rs : RSDic) : Nat := rs.bits.count true

/-- Modelled from the spec: `bit(i)` is `B[i]`; a position that holds no bit is
out of range. -/
def Bit (rs : RSDic) (i : Nat) : Option Bool := rs.bits[i]?

/-- Modelled from the spec: `rank(i, b) = |{ j < i : B[j] = b }|` for
`i ∈ [0, m]`, out of range for `i > m`. -/
def Rank (rs : RSDic) (i : Nat) (b : Bool) : Option Nat :=
  if i ≤ rs.bits.length then some ((rs.bits.take i).count b) else none

/-- Modelled from the spec: for `r < n_b`, `select(r, b)` is the smallest `i`
with `rank(i+1, b) = r+1`; out of range for `r ≥ n_b`. -/
def Select (rs : RSDic) (r : Nat) (b : Bool) : Option Nat :=
  if r < rs.bits.count b then
    (List.range rs.bits.length).find? (fun i => (rs.bits.take (i + 1)).count b == r + 1)
  else none

end RSDic

/-! ## `waveletTree.go` -/

/-- The half-open range `[Bpos, Epos)`. -/
structure Range where
  Bpos : Nat
  Epos : Nat
  deriving DecidableEq, Repr

/-! ## `waveletMatrixBuilder.go` -/

/-- The builder: the buffer of pushed values. -/
structure waveletMatrixBuilder where
  vals : List Nat
  deriving DecidableEq, Repr

/-- The matrix: `layers`, `dim`, `num` and `blen` (`= len(layers)`). -/
structure waveletMatrix where
  layers : List RSDic
  dim : Nat
  num : Nat
  blen : Nat
  deriving DecidableEq, Repr

/-- `NewBuilder`: a builder with an empty buffer. -/
def NewBuilder : waveletMatrixBuilder := ⟨[]⟩

/-- `PushBack`: append `val` to the buffer. -/
def waveletMatrixBuilder.PushBack (wmb : waveletMatrixBuilder) (val : Nat) :
    waveletMatrixBuilder :=
  ⟨wmb.vals ++ [val]⟩

/-- The loop of `getDim`, with the running value of `dim`. -/
def getDimLoop : List Nat → Nat → Nat
  | [], dim => dim
  | val :: vals, dim => getDimLoop vals (if val ≥ dim then add64 val 1 else dim)

/-- `getDim`. -/
def getDim (vals : List Nat) : Nat := getDimLoop vals 0

/-- The loop of `getBinaryLen`; the first argument bounds the number of
iterations, a `uint64` is exhausted after 64 shifts. -/
def getBinaryLenLoop : Nat → Nat → Nat → Nat
  | 0, _, blen => blen
  | fuel + 1, val, blen =>
    if val > 0 then getBinaryLenLoop fuel (val >>> 1) (add64 blen 1) else blen

/-- `getBinaryLen`. -/
def getBinaryLen (val : Nat) : Nat := getBinaryLenLoop 64 val 0

/-- `filter`: push the bit `depth` of every value into `rsd` and distribute the
values over `nextZeros` and `nextOnes`. The three updated objects are
returned. -/
def filter : List Nat → Nat → List Nat → List Nat → RSDic → List Nat × List Nat × RSDic
  | [], _, nextZeros, nextOnes, rsd => (nextZeros, nextOnes, rsd)
  | val :: vals, depth, nextZeros, nextOnes, rsd =>
    let bit := ((val >>> depth) &&& 1) == 1
    let rsd := rsd.PushBack bit
    if bit then filter vals depth nextZeros (nextOnes ++ [val]) rsd
    else filter vals depth (nextZeros ++ [val]) nextOnes rsd

/-- The loop of `Build`: the first argument is the number of iterations left,
the result is the list of the layers `depth, depth+1, ...`. -/
def buildLoop (blen : Nat) : Nat → Nat → List Nat → List Nat → List RSDic
  | 0, _, _, _ => []
  | fuel + 1, depth, zeros, ones =>
    let r0 := filter zeros (sub64 (sub64 blen depth) 1) [] [] RSDic.New
    let r1 := filter ones (sub64 (sub64 blen depth) 1) r0.1 r0.2.1 r0.2.2
    r1.2.2 :: buildLoop blen fuel (add64 depth 1) r1.1 r1.2.1

/-- `Build`. -/
def waveletMatrixBuilder.Build (wmb : waveletMatrixBuilder) : waveletMatrix :=
  let dim := getDim wmb.vals
  let blen := getBinaryLen dim
  ⟨buildLoop blen blen 0 wmb.vals [], dim, wmb.vals.length % two64, blen⟩

/-! ## `waveletMatrix.go` -/

/-- `New`: the empty matrix. -/
def New : waveletMatrix := ⟨[], 0, 0, 0⟩

/-- `getMSB`. -/
def getMSB (x pos blen : Nat) : Bool :=
  ((x >>> (sub64 (sub64 blen pos) 1)) &&& 1) == 1

namespace waveletMatrix

/-- `Num`. -/
def Num (wm : waveletMatrix) : Nat := wm.num

/-- `Dim`. -/
def Dim (wm : waveletMatrix) : Nat := wm.dim

/-- The loop of `Lookup`. -/
def lookupLoop (wm : waveletMatrix) : Nat → Nat → Nat → Nat → Option Nat
  | 0, _, _, val => some val
  | fuel + 1, depth, pos, val => do
    let val := shl64 val 1
    let rsd ← wm.layers[depth]?
    if !(← rsd.Bit pos) then
      let pos ← rsd.Rank pos false
      lookupLoop wm fuel (depth + 1) pos val
    else
      let val := val ||| 1
      let pos := add64 rsd.ZeroNum (← rsd.Rank pos true)
      lookupLoop wm fuel (depth + 1) pos val

/-- `Lookup`. -/
def Lookup (wm : waveletMatrix) (pos : Nat) : Option Nat :=
  lookupLoop wm wm.layers.length 0 pos 0

/-- The loop of `RankRange`. -/
def rankRangeLoop (wm : waveletMatrix) : Nat → Nat → Range → Nat → Option Range
  | 0, _, ranze, _ => some ranze
  | fuel + 1, depth, ranze, val => do
    let bit := getMSB val depth wm.blen
    let rsd ← wm.layers[depth]?
    let bpos ← rsd.Rank ranze.Bpos bit
    let epos ← rsd.Rank ranze.Epos bit
    if bit then
      rankRangeLoop wm fuel (add64 depth 1)
        ⟨add64 bpos rsd.ZeroNum, add64 epos rsd.ZeroNum⟩ val
    else
      rankRangeLoop wm fuel (add64 depth 1) ⟨bpos, epos⟩ val

/-- `RankRange`. -/
def RankRange (wm : waveletMatrix) (ranze : Range) (val : Nat) : Option Range :=
  rankRangeLoop wm wm.blen 0 ranze val

/-- `Rank`. -/
def Rank (wm : waveletMatrix) (pos val : Nat) : Option Nat := do
  let ranze ← wm.RankRange ⟨0, pos⟩ val
  pure (sub64 ranze.Epos ranze.Bpos)

/-- `selectHelper`; the first argument bounds the recursion depth. -/
def selectHelper (wm : waveletMatrix) : Nat → Nat → Nat → Nat → Nat → Option Nat
  | fuel, rank, val, pos, depth =>
    if depth = wm.blen then some (add64 pos rank)
    else
      match fuel with
      | 0 => none
      | fuel + 1 => do
        let bit := getMSB val depth wm.blen
        let rsd ← wm.layers[depth]?
        let pos ← rsd.Rank pos bit
        if !bit then
          let rank ← selectHelper wm fuel rank val pos (add64 depth 1)
          rsd.Select rank false
        else
          let zeroNum := rsd.ZeroNum
          let pos := add64 pos zeroNum
          let rank ← selectHelper wm fuel rank val pos (add64 depth 1)
          rsd.Select (sub64 rank zeroNum) true

/-- `Select`. -/
def Select (wm : waveletMatrix) (rank val : Nat) : Option Nat :=
  selectHelper wm wm.blen rank val 0 0

/-- The loop of `LookupAndRank`, on `(depth, val, bpos, epos)`. -/
def lookupAndRankLoop (wm : waveletMatrix) : Nat → Nat → Nat → Nat → Nat → Option (Nat × Nat)
  | 0, _, val, bpos, epos => some (val, sub64 epos bpos)
  | fuel + 1, depth, val, bpos, epos => do
    let rsd ← wm.layers[depth]?
    let bit ← rsd.Bit epos
    let bpos ← rsd.Rank bpos bit
    let epos ← rsd.Rank epos bit
    let val := shl64 val 1
    if bit then
      lookupAndRankLoop wm fuel (add64 depth 1) (val ||| 1)
        (add64 bpos rsd.ZeroNum) (add64 epos rsd.ZeroNum)
    else
      lookupAndRankLoop wm fuel (add64 depth 1) val bpos epos

/-- `LookupAndRank`. -/
def LookupAndRank (wm : waveletMatrix) (pos : Nat) : Option (Nat × Nat) :=
  lookupAndRankLoop wm wm.blen 0 0 0 pos

/-- The loop of `Quantile`, on `(depth, val, bpos, epos, k)`. -/
def quantileLoop (wm : waveletMatrix) : Nat → Nat → Nat → Nat → Nat → Nat → Option Nat
  | 0, _, val, _, _, _ => some val
  | fuel + 1, depth, val, bpos, epos, k => do
    let val := shl64 val 1
    let rsd ← wm.layers[depth]?
    let nzBpos ← rsd.Rank bpos false
    let nzEpos ← rsd.Rank epos false
    let nz := sub64 nzEpos nzBpos
    if k < nz then
      quantileLoop wm fuel (depth + 1) val nzBpos nzEpos k
    else
      quantileLoop wm fuel (depth + 1) (val ||| 1)
        (sub64 (add64 rsd.ZeroNum bpos) nzBpos)
        (sub64 (add64 rsd.ZeroNum epos) nzEpos) (sub64 k nz)

/-- `Quantile`. -/
def Quantile (wm : waveletMatrix) (ranze : Range) (k : Nat) : Option Nat :=
  quantileLoop wm wm.layers.length 0 0 ranze.Bpos ranze.Epos k

/-- The `for _, ranze := range ranges` loop of `intersectHelper`, on
`(zeroRanges, oneRanges)`. -/
def splitRanges (rsd : RSDic) : List Range → List Range → List Range →
    Option (List Range × List Range)
  | [], zeroRanges, oneRanges => some (zeroRanges, oneRanges)
  | ranze :: ranges, zeroRanges, oneRanges => do
    let bpos := ranze.Bpos
    let epos := ranze.Epos
    let nzBpos ← rsd.Rank bpos false
    let nzEpos ← rsd.Rank epos false
    let noBpos := add64 (sub64 bpos nzBpos) rsd.ZeroNum
    let noEpos := add64 (sub64 epos nzEpos) rsd.ZeroNum
    let zeroRanges :=
      if sub64 nzEpos nzBpos > 0 then zeroRanges ++ [⟨nzBpos, nzEpos⟩] else zeroRanges
    let oneRanges :=
      if sub64 noEpos noBpos > 0 then oneRanges ++ [⟨noBpos, noEpos⟩] else oneRanges
    splitRanges rsd ranges zeroRanges oneRanges

/-- `intersectHelper`; the first argument bounds the recursion depth, `k` is a
signed `int`. -/
def intersectHelper (wm : waveletMatrix) : Nat → List Range → Int → Nat → Nat →
    Option (List Nat)
  | fuel, ranges, k, depth, pfx =>
    if depth = wm.blen then some [pfx]
    else
      match fuel with
      | 0 => none
      | fuel + 1 => do
        let rsd ← wm.layers[depth]?
        let split ← splitRanges rsd ranges [] []
        let zeroRanges := split.1
        let oneRanges := split.2
        let ret : List Nat := []
        let ret ←
          if (zeroRanges.length : Int) ≥ k then
            (intersectHelper wm fuel zeroRanges k (add64 depth 1) (shl64 pfx 1)).map (ret ++ ·)
          else some ret
        let ret ←
          if (oneRanges.length : Int) ≥ k then
            (intersectHelper wm fuel oneRanges k (add64 depth 1) (shl64 pfx 1 ||| 1)).map
              (ret ++ ·)
          else some ret
        pure ret

/-- `Intersect`. -/
def Intersect (wm : waveletMatrix) (ranges : List Range) (k : Int) : Option (List Nat) :=
  intersectHelper wm wm.blen ranges k 0 0

end waveletMatrix

/-- The matrix obtained by pushing the values of `T` in order into a new
builder and calling `Build`. -/
def buildFrom (T : List Nat) : waveletMatrix :=
  (T.foldl waveletMatrixBuilder.PushBack NewBuilder).Build

/-! ## Reference semantics

The sequence held at a depth, the stable partition that leads to the next depth
and the layers that `Build` derives from them. -/

/-- Bit `p` of `v`, as tested by `filter` and `getMSB`. -/
def bitOf (p v : Nat) : Bool := ((v >>> p) &&& 1) == 1

/-- The test "bit `p` equals `b`". -/
def sel (p : Nat) (b : Bool) (v : Nat) : Bool := bitOf p v == b

/-- The stable partition on bit `p`: values with a 0 first, then those with a 1. -/
def part (p : Nat) (S : List Nat) : List Nat :=
  S.filter (sel p false) ++ S.filter (sel p true)

/-- The layers for the `rem` lowest bit positions of the sequence `S`. -/
def layersOf : Nat → List Nat → List RSDic
  | 0, _ => []
  | rem + 1, S => ⟨S.map (bitOf rem)⟩ :: layersOf rem (part rem S)

/-- The sequence at depth `d` of a matrix with `blen` layers built from `T`. -/
def seqAt (blen : Nat) (T : List Nat) : Nat → List Nat
  | 0 => T
  | d + 1 => part (blen - d - 1) (seqAt blen T d)

/-- The elements at the positions `bp ≤ j < ep`. -/
def slice {α : Type} (L : List α) (bp ep : Nat) : List α := (L.take ep).drop bp

/-- The image in `part p S` of position `i` of `S`, on the side of bit `b`. -/
def down (p : Nat) (S : List Nat) (b : Bool) (i : Nat) : Nat :=
  (if b then (S.filter (sel p false)).length else 0) + (S.take i).countP (sel p b)

/-- The layers of `wm` from `depth` on are those of the sequence `S` with `rem`
bit positions left. -/
structure LayersAt (wm : waveletMatrix) (depth rem : Nat) (S : List Nat) : Prop where
  drop_eq : wm.layers.drop depth = layersOf rem S
  depth_add : depth + rem = wm.blen
  blen_le : wm.blen ≤ 64
  len_lt : S.length < two64

/-- The range `r` lies inside a sequence of length `m`: `Bpos ≤ Epos ≤ m`. -/
def Range.valid (m : Nat) (r : Range) : Prop := r.Bpos ≤ r.Epos ∧ r.Epos ≤ m

instance (m : Nat) (r : Range) : Decidable (Range.valid m r) := by
  unfold Range.valid
  exact inferInstance

/-- The image of the range `r` of `S` in `part p S`, on the side of bit `b`. -/
def child (p : Nat) (S : List Nat) (b : Bool) (r : Range) : Range :=
  ⟨down p S b r.Bpos, down p S b r.Epos⟩

/-- The non-empty images of the ranges `Rs` on the side of bit `b`. -/
def children (p : Nat) (S : List Nat) (b : Bool) (Rs : List Range) : List Range :=
  (Rs.map (child p S b)).filter (fun r => decide (r.Bpos < r.Epos))

/-- Some element of `S` in the range `r` has the `rem` lowest bits `w`. -/
def hasVal (rem : Nat) (S : List Nat) (w : Nat) (r : Range) : Bool :=
  (slice S r.Bpos r.Epos).any (fun y => y % 2 ^ rem == w)

/-- The number of ranges of `Rs` that hold an element with the `rem` lowest
bits `w`. -/
def cnt (rem : Nat) (S : List Nat) (Rs : List Range) (w : Nat) : Nat :=
  Rs.countP (hasVal rem S w)

/-- The number of entries of `ranges` in which `v` occurs; an entry counts once,
however often `v` occurs in it. -/
def occ (T : List Nat) (ranges : List Range) (v : Nat) : Nat :=
  ranges.countP (fun r => decide (v ∈ slice T r.Bpos r.Epos))

/-- The test oracle `origIntersect` of `waveletMatrix_test.go`: `cand` counts, for
every value, the ranges whose set of values contains it; the keys of `cand` with
a count of at least `k` are returned in ascending order. -/
def origIntersect (orig : List Nat) (ranges : List Range) (k : Int) : List Nat :=
  let sets := ranges.map (fun ranze => (slice orig ranze.Bpos ranze.Epos).dedup)
  let keys := sets.flatten.dedup
  let ret := keys.filter (fun key => decide ((sets.countP (fun set => decide (key ∈ set)) : Int) ≥ k))
  ret.insertionSort (· ≤ ·)

/-! ## The descent of `selectHelper` -/

/-- The value of `pos` that `selectHelper` hands to the call `steps` levels
further down, when it is entered at `depth` with `pos`: the statements
`bit := getMSB(..)`, `pos = rsd.Rank(pos, bit)` and `pos += zeroNum` of each
level. -/
def selectPos (wm : waveletMatrix) (val : Nat) : Nat → Nat → Nat → Option Nat
  | 0, _, pos => some pos
  | steps + 1, depth, pos => do
    let bit := getMSB val depth wm.blen
    let rsd ← wm.layers[depth]?
    let pos ← rsd.Rank pos bit
    if !bit then selectPos wm val steps (add64 depth 1) pos
    else selectPos wm val steps (add64 depth 1) (add64 pos rsd.ZeroNum)

/-! ## Serialisation

`MarshalBinary` and `UnmarshalBinary` drive an encoder and a decoder of the
package `github.com/ugorji/go/codec`, which is not part of the sources; the
codec is a parameter. A byte stream is a list of byte values. -/

/-- The encoder and the decoder for one kind of value: `enc` yields the bytes
appended to the output, or fails; `dec` reads one value from the front of the
input and returns it with the rest of the input, or fails. -/
structure Coder (α : Type) where
  enc : α → Option (List Nat)
  dec : List Nat → Option (α × List Nat)

/-- The codec for the three kinds of value that are written: an `int`
(`len(wm.layers)`), an `rsdic.RSDic` and a `uint64`. -/
structure Codec where
  int : Coder Nat
  rsd : Coder RSDic
  uint64 : Coder Nat

/-- The coder reads back what it wrote: for every value `x` with `ok x`,
encoding succeeds and decoding the bytes, followed by any `rest`, yields `x` and
`rest`. -/
def Coder.RoundTrip {α : Type} (c : Coder α) (ok : α → Prop) : Prop :=
  ∀ x, ok x → ∃ bs, c.enc x = some bs ∧ ∀ rest, c.dec (bs ++ rest) = some (x, rest)

/-- Every coder of the codec reads back what it wrote, on the values of its Go
type. -/
structure Codec.Lawful (c : Codec) : Prop where
  int : c.int.RoundTrip (fun x => x < 2 ^ 63)
  rsd : c.rsd.RoundTrip (fun _ => True)
  uint64 : c.uint64.RoundTrip (fun x => x < 2 ^ 64)

/-- The loop `for i := 0; i < len(wm.layers); i++` of `MarshalBinary`, on the
layers still to be written and the output so far. -/
def marshalLayers (c : Codec) : List RSDic → List Nat → Option (List Nat)
  | [], out => some out
  | rsd :: layers, out => do
    let bs ← c.rsd.enc rsd
    marshalLayers c layers (out ++ bs)

/-- `MarshalBinary`: the number of layers, the layers, `dim`, `num`, `blen`. -/
def waveletMatrix.MarshalBinary (c : Codec) (wm : waveletMatrix) : Option (List Nat) := do
  let out ← c.int.enc wm.layers.length
  let out ← marshalLayers c wm.layers out
  let out := out ++ (← c.uint64.enc wm.dim)
  let out := out ++ (← c.uint64.enc wm.num)
  let out := out ++ (← c.uint64.enc wm.blen)
  pure out

/-- The loop `for i := 0; i < layerNum; i++` of `UnmarshalBinary`, on the number
of layers still to be read and the input left. -/
def unmarshalLayers (c : Codec) : Nat → List Nat → Option (List RSDic × List Nat)
  | 0, inp => some ([], inp)
  | n + 1, inp => do
    let r ← c.rsd.dec inp
    let rs ← unmarshalLayers c n r.2
    pure (r.1 :: rs.1, rs.2)

/-- `UnmarshalBinary`: the receiver with its four fields read from `inp`. -/
def waveletMatrix.UnmarshalBinary (c : Codec) (wm : waveletMatrix) (inp : List Nat) :
    Option waveletMatrix := do
  let layerNum ← c.int.dec inp
  let layers ← unmarshalLayers c layerNum.1 layerNum.2
  let wm := { wm with layers := layers.1 }
  let dim ← c.uint64.dec layers.2
  let wm := { wm with dim := dim.1 }
  let num ← c.uint64.dec dim.2
  let wm := { wm with num := num.1 }
  let blen ← c.uint64.dec num.2
  let wm := { wm with blen := blen.1 }
  pure wm

/-- A sample decoder of a number written in unary: as many bytes 1 as the
number says, closed by a byte 0. -/
def unaryDec : List Nat → Option (Nat × List Nat)
  | [] => none
  | 0 :: rest => some (0, rest)
  | _ :: rest => (unaryDec rest).map (fun r => (r.1 + 1, r.2))

/-- A sample coder for numbers, in unary. -/
def unaryCoder : Coder Nat :=
  ⟨fun n => some (List.replicate n 1 ++ [0]), unaryDec⟩

/-- A sample coder for bit dictionaries: the number of bits in unary, then one
byte per bit. -/
def bitsCoder : Coder RSDic :=
  ⟨fun rsd => some (List.replicate rsd.bits.length 1 ++ [0]
      ++ rsd.bits.map (fun b => if b then 1 else 0)),
    fun inp => (unaryDec inp).bind (fun r =>
      if r.1 ≤ r.2.length then
        some (⟨(r.2.take r.1).map (fun x => decide (x = 1))⟩, r.2.drop r.1)
      else none)⟩

/-- A sample codec. -/
def sampleCodec : Codec := ⟨unaryCoder, bitsCoder, unaryCoder⟩

/-! ## The builder on a heap

The builder keeps its values in a Go slice. To follow what `Build` does to that
buffer, slices are modelled with their backing arrays: a slice header names an
array of the heap, and `append` writes either into the spare capacity of that
array or into a newly allocated one. -/

/-- The heap: the backing arrays of `[]uint64` allocated so far, addressed by
their index. -/
abbrev Heap := List (List Nat)

/-- A slice header: the backing array, the length and the capacity. No slice of
this package is re-sliced, so a slice starts at element 0 of its array. -/
structure Slice where
  arr : Nat
  len : Nat
  cap : Nat
  deriving DecidableEq, Repr

/-- The backing array number `a`. -/
def Heap.array (h : Heap) (a : Nat) : List Nat := (h[a]?).getD []

/-- The elements of the slice `s`. -/
def Heap.elems (h : Heap) (s : Slice) : List Nat := (h.array s.arr).take s.len

/-- The element `s[i]`; an index outside the slice panics. -/
def Heap.read (h : Heap) (s : Slice) (i : Nat) : Option Nat :=
  if i < s.len then (h.array s.arr)[i]? else none

/-- The slice header fits the heap: its array exists and has the size of the
capacity, and the length does not exceed the capacity. -/
def Slice.WF (h : Heap) (s : Slice) : Prop :=
  s.arr < h.length ∧ s.len ≤ s.cap ∧ (h.array s.arr).length = s.cap

instance (h : Heap) (s : Slice) : Decidable (Slice.WF h s) := by
  unfold Slice.WF
  exact inferInstance

/-- `make([]uint64, 0)`: a slice of length and capacity 0 on an array of its
own. -/
def makeSlice (h : Heap) : Heap × Slice := (h ++ [[]], ⟨h.length, 0, 0⟩)

/-- Go's `append(s, val)`. With spare capacity the value is written into the
backing array of `s`, in place; otherwise a new array is allocated, the elements
are copied and the value is added. The capacity of a new array is the choice of
the runtime: `grow` proposes it from the old capacity and the needed length. -/
def goAppend (grow : Nat → Nat → Nat) (h : Heap) (s : Slice) (val : Nat) : Heap × Slice :=
  if s.len < s.cap then
    (h.set s.arr ((h.array s.arr).set s.len val), ⟨s.arr, s.len + 1, s.cap⟩)
  else
    let cap := max (s.len + 1) (grow s.cap (s.len + 1))
    (h ++ [(h.array s.arr).take s.len ++ val :: List.replicate (cap - (s.len + 1)) 0],
      ⟨h.length, s.len + 1, cap⟩)

namespace onHeap

/-- The builder: the heap and the slice header held in the field `vals`. -/
structure waveletMatrixBuilder where
  heap : Heap
  vals : Slice
  deriving DecidableEq, Repr

/-- `NewBuilder`: `vals: make([]uint64, 0)`. -/
def NewBuilder : waveletMatrixBuilder := ⟨(makeSlice []).1, (makeSlice []).2⟩

/-- `PushBack`: `wmb.vals = append(wmb.vals, val)`. -/
def PushBack (grow : Nat → Nat → Nat) (wmb : waveletMatrixBuilder) (val : Nat) :
    waveletMatrixBuilder :=
  let r := goAppend grow wmb.heap wmb.vals val
  ⟨r.1, r.2⟩

/-- The loop `for _, val := range vals` of `filter`: the first argument is the
number of iterations left, `i` the index of the element read next. The element
is read from the heap as it is at that moment; the appends go through the
pointers `nextZeros` and `nextOnes`. -/
def filterLoop (grow : Nat → Nat → Nat) (vals : Slice) (depth : Nat) :
    Nat → Nat → Heap → Slice → Slice → RSDic → Option (Heap × Slice × Slice × RSDic)
  | 0, _, h, nextZeros, nextOnes, rsd => some (h, nextZeros, nextOnes, rsd)
  | n + 1, i, h, nextZeros, nextOnes, rsd => do
    let val ← h.read vals i
    let bit := ((val >>> depth) &&& 1) == 1
    let rsd := rsd.PushBack bit
    if bit then
      let r := goAppend grow h nextOnes val
      filterLoop grow vals depth n (i + 1) r.1 nextZeros r.2 rsd
    else
      let r := goAppend grow h nextZeros val
      filterLoop grow vals depth n (i + 1) r.1 r.2 nextOnes rsd

/-- `filter`. -/
def filter (grow : Nat → Nat → Nat) (h : Heap) (vals : Slice) (depth : Nat)
    (nextZeros nextOnes : Slice) (rsd : RSDic) : Option (Heap × Slice × Slice × RSDic) :=
  filterLoop grow vals depth vals.len 0 h nextZeros nextOnes rsd

/-- The loop of `Build`: the first argument is the number of iterations left;
the result is the heap left behind and the layers `depth, depth+1, ...`. -/
def buildLoop (grow : Nat → Nat → Nat) (blen : Nat) :
    Nat → Nat → Heap → Slice → Slice → Option (Heap × List RSDic)
  | 0, _, h, _, _ => some (h, [])
  | fuel + 1, depth, h, zeros, ones => do
    let z := makeSlice h
    let o := makeSlice z.1
    let r0 ← filter grow o.1 zeros (sub64 (sub64 blen depth) 1) z.2 o.2 RSDic.New
    let r1 ← filter grow r0.1 ones (sub64 (sub64 blen depth) 1) r0.2.1 r0.2.2.1 r0.2.2.2
    let rest ← buildLoop grow blen fuel (add64 depth 1) r1.1 r1.2.1 r1.2.2.1
    pure (rest.1, r1.2.2.2 :: rest.2)

/-- `Build`: the builder as the call leaves it, and the matrix returned. No
statement of `Build` assigns the field `vals`; what happens to the elements of
the buffer is decided by the heap. -/
def Build (grow : Nat → Nat → Nat) (wmb : waveletMatrixBuilder) :
    Option (waveletMatrixBuilder × waveletMatrix) := do
  let dim := getDim (wmb.heap.elems wmb.vals)
  let blen := getBinaryLen dim
  let zeros := wmb.vals
  let o := makeSlice wmb.heap
  let r ← buildLoop grow blen blen 0 o.1 zeros o.2
  pure (⟨r.1, wmb.vals⟩, ⟨r.2, dim, wmb.vals.len % two64, blen⟩)

end onHeap

/-! ## Arithmetic lemmas -/

theorem two64_eq : two64 = 18446744073709551616 := by decide

theorem add64_eq {a b : Nat} (h : a + b < two64) : add64 a b = a + b :=
  Nat.mod_eq_of_lt h

theorem sub64_eq {a b : Nat} (hb : b ≤ a) (ha : a < two64) : sub64 a b = a - b := by
  unfold sub64
  rw [Nat.mod_eq_of_lt (Nat.lt_of_le_of_lt hb ha)]
  have h : a + (two64 - b) = (a - b) + two64 := by omega
  rw [h, Nat.add_mod_right, Nat.mod_eq_of_lt (by omega)]

theorem shl64_one {a : Nat} (h : 2 * a < two64) : shl64 a 1 = 2 * a := by
  unfold shl64
  rw [Nat.shiftLeft_eq, Nat.pow_one, Nat.mul_comm, Nat.mod_eq_of_lt h]

theorem two_mul_or_one (a : Nat) : (2 * a) ||| 1 = 2 * a + 1 := by
  have h := Nat.mul_add_lt_is_or (show 1 < 2 ^ 1 by decide) a
  simpa using h.symm

theorem bitOf_eq (p v : Nat) : bitOf p v = decide (v / 2 ^ p % 2 = 1) := by
  unfold bitOf
  rw [Nat.shiftRight_eq_div_pow, Nat.and_one_is_mod]
  by_cases h : v / 2 ^ p % 2 = 1 <;> simp [h]

theorem mod_succ_of_bit (r y : Nat) :
    y % 2 ^ (r + 1) = y % 2 ^ r + 2 ^ r * (if bitOf r y then 1 else 0) := by
  rw [Nat.mod_pow_succ, bitOf_eq]
  rcases Nat.mod_two_eq_zero_or_one (y / 2 ^ r) with h | h <;> simp [h]

theorem mod_succ_eq_iff (r y v : Nat) :
    y % 2 ^ (r + 1) = v % 2 ^ (r + 1) ↔ (bitOf r y = bitOf r v ∧ y % 2 ^ r = v % 2 ^ r) := by
  rw [mod_succ_of_bit r y, mod_succ_of_bit r v]
  have hy : y % 2 ^ r < 2 ^ r := Nat.mod_lt _ (by positivity)
  have hv : v % 2 ^ r < 2 ^ r := Nat.mod_lt _ (by positivity)
  cases bitOf r y <;> cases bitOf r v <;> simp <;> omega

/-! ## Slices and stable filtering -/

section Slices
variable {α : Type}

theorem filter_take_countP (q : α → Bool) (L : List α) (i : Nat) :
    (L.filter q).take ((L.take i).countP q) = (L.take i).filter q := by
  have h : L.filter q = (L.take i).filter q ++ (L.drop i).filter q := by
    rw [← List.filter_append, List.take_append_drop]
  rw [h]
  exact List.take_left' (by rw [List.countP_eq_length_filter])

theorem slice_filter (q : α → Bool) (L : List α) (bp ep : Nat) (h : bp ≤ ep) :
    slice (L.filter q) ((L.take bp).countP q) ((L.take ep).countP q)
      = (slice L bp ep).filter q := by
  unfold slice
  rw [filter_take_countP]
  have h1 : L.take ep = L.take bp ++ (L.take ep).drop bp := by
    conv_lhs => rw [← List.take_append_drop bp (L.take ep)]
    rw [List.take_take, Nat.min_eq_left h]
  conv_lhs => rw [h1, List.filter_append]
  exact List.drop_left' (by rw [List.countP_eq_length_filter])

theorem slice_append_right (A B : List α) (x y : Nat) :
    slice (A ++ B) (A.length + x) (A.length + y) = slice B x y := by
  unfold slice
  rw [List.take_append_eq_append_take, List.take_of_length_le (by omega)]
  rw [List.drop_append_eq_append_drop, List.drop_of_length_le (by omega)]
  simp

theorem slice_append_left (A B : List α) (x y : Nat) (hy : y ≤ A.length) :
    slice (A ++ B) x y = slice A x y := by
  unfold slice
  rw [List.take_append_of_le_length hy]

theorem slice_length (L : List α) (bp ep : Nat) (h : ep ≤ L.length) :
    (slice L bp ep).length = ep - bp := by
  unfold slice; simp; omega

theorem slice_succ (L : List α) (i : Nat) (h : i < L.length) :
    slice L i (i + 1) = [L[i]] := by
  unfold slice
  rw [List.take_succ, List.drop_append_eq_append_drop]
  simp [List.getElem?_eq_getElem h, List.drop_of_length_le, Nat.min_eq_left (Nat.le_of_lt h)]

theorem slice_zero (L : List α) (ep : Nat) : slice L 0 ep = L.take ep := by
  simp [slice]

theorem getElem?_of_slice_succ (L : List α) (i : Nat) (x : α)
    (h : slice L i (i + 1) = [x]) : L[i]? = some x := by
  have h0 : (slice L i (i + 1))[0]? = some x := by rw [h]; rfl
  unfold slice at h0
  rw [List.getElem?_drop, List.getElem?_take] at h0
  simpa using h0

theorem countP_take_le (q : α → Bool) (L : List α) (i : Nat) :
    (L.take i).countP q ≤ L.countP q :=
  (List.take_sublist i L).countP_le q

theorem countP_take_mono (q : α → Bool) (L : List α) {i j : Nat} (h : i ≤ j) :
    (L.take i).countP q ≤ (L.take j).countP q := by
  have : L.take i = (L.take j).take i := by rw [List.take_take, Nat.min_eq_left h]
  rw [this]
  exact countP_take_le q _ i

end Slices

/-! ## The builder -/

theorem filter_eq (vals : List Nat) (p : Nat) (nz no : List Nat) (rsd : RSDic) :
    filter vals p nz no rsd
      = (nz ++ vals.filter (sel p false), no ++ vals.filter (sel p true),
          ⟨rsd.bits ++ vals.map (bitOf p)⟩) := by
  induction vals generalizing nz no rsd with
  | nil => simp [filter]
  | cons v vs ih =>
    unfold filter
    simp only []
    have hb : (((v >>> p) &&& 1) == 1) = bitOf p v := rfl
    rw [hb]
    cases h : bitOf p v
    · simp [ih, sel, h, RSDic.PushBack]
    · simp [ih, sel, h, RSDic.PushBack]

theorem buildLoop_eq (blen : Nat) (hb : blen < two64) (fuel depth : Nat)
    (hd : depth + fuel = blen) (zeros ones : List Nat) :
    buildLoop blen fuel depth zeros ones = layersOf fuel (zeros ++ ones) := by
  induction fuel generalizing depth zeros ones with
  | zero => simp [buildLoop, layersOf]
  | succ n ih =>
    unfold buildLoop
    simp only [filter_eq]
    have h1 : sub64 blen depth = blen - depth := sub64_eq (by omega) hb
    have h2 : sub64 (blen - depth) 1 = n := by
      rw [sub64_eq (by omega) (by omega)]; omega
    have h3 : add64 depth 1 = depth + 1 := add64_eq (by omega)
    rw [h1, h2, h3, ih (depth + 1) (by omega)]
    simp [layersOf, part, RSDic.New]

theorem foldl_PushBack (T : List Nat) (b : waveletMatrixBuilder) :
    (T.foldl waveletMatrixBuilder.PushBack b).vals = b.vals ++ T := by
  induction T generalizing b with
  | nil => simp
  | cons x xs ih => simp [ih, waveletMatrixBuilder.PushBack]

theorem buildFrom_eq (T : List Nat) :
    buildFrom T =
      ⟨buildLoop (getBinaryLen (getDim T)) (getBinaryLen (getDim T)) 0 T [], getDim T,
        T.length % two64, getBinaryLen (getDim T)⟩ := by
  unfold buildFrom waveletMatrixBuilder.Build
  simp [foldl_PushBack, NewBuilder]

/-! ### `getDim` and `getBinaryLen` -/

theorem getDimLoop_lt (vals : List Nat) (dim : Nat) (h : dim < two64) :
    getDimLoop vals dim < two64 := by
  induction vals generalizing dim with
  | nil => simpa [getDimLoop]
  | cons v vs ih =>
    unfold getDimLoop
    apply ih
    split
    · exact Nat.mod_lt _ (by decide)
    · exact h

theorem getDim_lt (vals : List Nat) : getDim vals < two64 :=
  getDimLoop_lt vals 0 (by decide)

theorem getDimLoop_eq (vals : List Nat) (dim : Nat) (hv : ∀ x ∈ vals, x < two64 - 1) :
    getDimLoop vals dim = vals.foldl (fun d x => max d (x + 1)) dim := by
  induction vals generalizing dim with
  | nil => simp [getDimLoop]
  | cons v vs ih =>
    unfold getDimLoop
    have hv1 : v < two64 - 1 := hv v (by simp)
    rw [ih _ (fun x hx => hv x (by simp [hx])), List.foldl_cons]
    congr 1
    rw [add64_eq (by omega)]
    split <;> omega

theorem foldl_max_le (vals : List Nat) (dim : Nat) :
    dim ≤ vals.foldl (fun d x => max d (x + 1)) dim := by
  induction vals generalizing dim with
  | nil => simp
  | cons v vs ih => exact Nat.le_trans (Nat.le_max_left _ _) (ih _)

theorem foldl_max_gt (vals : List Nat) (dim : Nat) :
    ∀ x ∈ vals, x < vals.foldl (fun d x => max d (x + 1)) dim := by
  induction vals generalizing dim with
  | nil => simp
  | cons v vs ih =>
    intro x hx
    rcases List.mem_cons.1 hx with rfl | hx
    · exact Nat.lt_of_lt_of_le (by omega) (foldl_max_le vs (max dim (x + 1)))
    · exact ih _ x hx

theorem getDim_gt (vals : List Nat) (hv : ∀ x ∈ vals, x < two64 - 1) :
    ∀ x ∈ vals, x < getDim vals := by
  unfold getDim
  rw [getDimLoop_eq vals 0 hv]
  exact foldl_max_gt vals 0

theorem getBinaryLenLoop_eq (fuel val blen : Nat) (hv : val < 2 ^ fuel)
    (hb : blen + fuel < two64) :
    getBinaryLenLoop fuel val blen = blen + Nat.size val := by
  induction fuel generalizing val blen with
  | zero =>
    have : val = 0 := by simpa using hv
    subst this
    simp [getBinaryLenLoop]
  | succ n ih =>
    unfold getBinaryLenLoop
    by_cases h0 : val > 0
    · have hw : val >>> 1 = val / 2 := by rw [Nat.shiftRight_eq_div_pow, Nat.pow_one]
      rw [if_pos h0, add64_eq (by omega), hw, ih _ _ _ (by omega)]
      · have hs : Nat.size val = Nat.size (val / 2) + 1 := by
          apply Nat.le_antisymm
          · rw [Nat.size_le, Nat.pow_succ]
            have := Nat.lt_size_self (val / 2)
            omega
          · rw [Nat.succ_le_iff, Nat.lt_size]
            rcases Nat.eq_zero_or_pos (Nat.size (val / 2)) with hz | hp
            · rw [hz]; simpa using h0
            · have : Nat.size (val / 2) - 1 < Nat.size (val / 2) := by omega
              rw [Nat.lt_size] at this
              have h2 : 2 ^ Nat.size (val / 2) = 2 * 2 ^ (Nat.size (val / 2) - 1) := by
                rw [← Nat.pow_succ']; congr 1; omega
              rw [h2]
              omega
        omega
      · rw [Nat.pow_succ] at hv
        omega
    · have : val = 0 := by omega
      subst this
      simp [getBinaryLenLoop]

theorem getBinaryLen_eq (val : Nat) (hv : val < two64) :
    getBinaryLen val = Nat.size val := by
  unfold getBinaryLen
  rw [getBinaryLenLoop_eq 64 val 0 hv (by decide)]
  simp

theorem getBinaryLen_le (val : Nat) (hv : val < two64) : getBinaryLen val ≤ 64 := by
  rw [getBinaryLen_eq val hv, Nat.size_le]
  exact hv

theorem lt_pow_getBinaryLen (val : Nat) (hv : val < two64) : val < 2 ^ getBinaryLen val := by
  rw [getBinaryLen_eq val hv]
  exact Nat.lt_size_self val

/-! ## One layer -/

theorem RSDic.select_rank (rs : RSDic) (i : Nat) (b : Bool) (h : rs.bits[i]? = some b) :
    rs.Select ((rs.bits.take i).count b) b = some i := by
  have hi : i < rs.bits.length := by
    rcases Nat.lt_or_ge i rs.bits.length with h1 | h1
    · exact h1
    · rw [List.getElem?_eq_none h1] at h; cases h
  have hsucc : (rs.bits.take (i + 1)).count b = (rs.bits.take i).count b + 1 := by
    rw [List.take_succ, h]; simp
  have hlt : (rs.bits.take i).count b < rs.bits.count b := by
    have := (List.take_sublist (i + 1) rs.bits).count_le b
    omega
  unfold RSDic.Select
  rw [if_pos hlt, List.find?_range_eq_some]
  refine ⟨by simp [hsucc], List.mem_range.2 hi, ?_⟩
  intro j hj
  have hle : (rs.bits.take (j + 1)).count b ≤ (rs.bits.take i).count b := by
    rw [List.count_eq_countP, List.count_eq_countP]
    exact countP_take_mono _ _ (by omega)
  simp only [Bool.not_eq_true', beq_eq_false_iff_ne, ne_eq]
  omega

theorem rank_layer (r : Nat) (S : List Nat) (i : Nat) (b : Bool) (hi : i ≤ S.length) :
    (RSDic.mk (S.map (bitOf r))).Rank i b = some ((S.take i).countP (sel r b)) := by
  unfold RSDic.Rank
  rw [if_pos (by simpa using hi), ← List.map_take, List.count_eq_countP, List.countP_map]
  rfl

theorem zeroNum_layer (r : Nat) (S : List Nat) :
    (RSDic.mk (S.map (bitOf r))).ZeroNum = (S.filter (sel r false)).length := by
  unfold RSDic.ZeroNum
  rw [List.count_eq_countP, List.countP_map, List.countP_eq_length_filter]
  rfl

theorem bit_layer (r : Nat) (S : List Nat) (i : Nat) :
    (RSDic.mk (S.map (bitOf r))).Bit i = (S[i]?).map (bitOf r) := by
  unfold RSDic.Bit
  rw [List.getElem?_map]

theorem select_layer (r : Nat) (S : List Nat) (i : Nat) (x : Nat) (b : Bool)
    (hx : S[i]? = some x) (hb : bitOf r x = b) :
    (RSDic.mk (S.map (bitOf r))).Select ((S.take i).countP (sel r b)) b = some i := by
  have h := RSDic.select_rank (RSDic.mk (S.map (bitOf r))) i b
    (by simp [List.getElem?_map, hx, hb])
  rw [← List.map_take, List.count_eq_countP, List.countP_map] at h
  exact h

theorem filter_length_add (r : Nat) (S : List Nat) :
    (S.filter (sel r false)).length + (S.filter (sel r true)).length = S.length := by
  induction S with
  | nil => simp
  | cons x xs ih =>
    cases h : bitOf r x <;> simp [List.filter_cons, sel, h] <;> omega

theorem length_part (r : Nat) (S : List Nat) : (part r S).length = S.length := by
  unfold part
  rw [List.length_append, filter_length_add]

theorem down_le (r : Nat) (S : List Nat) (b : Bool) (i : Nat) : down r S b i ≤ S.length := by
  unfold down
  have h1 := countP_take_le (sel r b) S i
  have h2 := filter_length_add r S
  rw [List.countP_eq_length_filter (sel r b) S] at h1
  cases b
  · simp only [Bool.false_eq_true, if_false, Nat.zero_add]; omega
  · simp only [if_true]; omega

theorem down_mono (r : Nat) (S : List Nat) (b : Bool) {i j : Nat} (h : i ≤ j) :
    down r S b i ≤ down r S b j := by
  unfold down
  have := countP_take_mono (sel r b) S h
  omega

theorem slice_part (r : Nat) (S : List Nat) (b : Bool) (bp ep : Nat) (h : bp ≤ ep) :
    slice (part r S) (down r S b bp) (down r S b ep) = (slice S bp ep).filter (sel r b) := by
  unfold part down
  cases b
  · simp only [Bool.false_eq_true, if_false, Nat.zero_add]
    rw [slice_append_left, slice_filter _ _ _ _ h]
    rw [← List.countP_eq_length_filter]
    exact countP_take_le _ _ _
  · simp only [if_true]
    rw [slice_append_right, slice_filter _ _ _ _ h]

theorem down_sub (r : Nat) (S : List Nat) (b : Bool) (bp ep : Nat) (h : bp ≤ ep) :
    down r S b ep - down r S b bp = (slice S bp ep).countP (sel r b) := by
  have h1 := congrArg List.length (slice_part r S b bp ep h)
  rw [slice_length _ _ _ (by rw [length_part]; exact down_le r S b ep)] at h1
  rw [h1, List.countP_eq_length_filter]

theorem down_getElem? (r : Nat) (S : List Nat) (i x : Nat) (hx : S[i]? = some x) :
    (part r S)[down r S (bitOf r x) i]? = some x ∧
      down r S (bitOf r x) (i + 1) = down r S (bitOf r x) i + 1 := by
  have hi : i < S.length := by
    rcases Nat.lt_or_ge i S.length with h1 | h1
    · exact h1
    · rw [List.getElem?_eq_none h1] at hx; cases hx
  have hxe : S[i] = x := by
    rw [List.getElem?_eq_getElem hi] at hx; exact Option.some.inj hx
  have hs : slice S i (i + 1) = [x] := by rw [slice_succ S i hi, hxe]
  have h1 := slice_part r S (bitOf r x) i (i + 1) (Nat.le_succ i)
  rw [hs] at h1
  have hf : [x].filter (sel r (bitOf r x)) = [x] := by simp [sel]
  rw [hf] at h1
  have h2 : down r S (bitOf r x) (i + 1) = down r S (bitOf r x) i + 1 := by
    have h3 := down_sub r S (bitOf r x) i (i + 1) (Nat.le_succ i)
    rw [hs] at h3
    have h4 := down_mono r S (bitOf r x) (Nat.le_succ i)
    simp [sel] at h3
    omega
  rw [h2] at h1
  exact ⟨getElem?_of_slice_succ _ _ _ h1, h2⟩

/-! ## Descending one layer -/

theorem getMSB_eq (val depth rem blen : Nat) (hd : depth + (rem + 1) = blen)
    (hb : blen ≤ 64) : getMSB val depth blen = bitOf rem val := by
  unfold getMSB bitOf
  have h1 : sub64 blen depth = blen - depth :=
    sub64_eq (by omega) (by rw [two64_eq]; omega)
  have h2 : sub64 (blen - depth) 1 = rem := by
    rw [sub64_eq (by omega) (by rw [two64_eq]; omega)]; omega
  rw [h1, h2]

theorem LayersAt.layer {wm : waveletMatrix} {depth rem : Nat} {S : List Nat}
    (h : LayersAt wm depth (rem + 1) S) :
    wm.layers[depth]? = some (RSDic.mk (S.map (bitOf rem))) := by
  have h1 := congrArg (fun l => l[0]?) h.drop_eq
  simpa [layersOf, List.getElem?_drop] using h1

theorem LayersAt.next {wm : waveletMatrix} {depth rem : Nat} {S : List Nat}
    (h : LayersAt wm depth (rem + 1) S) : LayersAt wm (depth + 1) rem (part rem S) := by
  refine ⟨?_, ?_, h.blen_le, ?_⟩
  · have h1 := congrArg (List.drop 1) h.drop_eq
    simpa [layersOf, List.drop_drop, Nat.add_comm] using h1
  · have := h.depth_add; omega
  · rw [length_part]; exact h.len_lt

theorem LayersAt.msb {wm : waveletMatrix} {depth rem : Nat} {S : List Nat}
    (h : LayersAt wm depth (rem + 1) S) (val : Nat) :
    getMSB val depth wm.blen = bitOf rem val :=
  getMSB_eq val depth rem wm.blen h.depth_add h.blen_le

theorem LayersAt.succ_depth {wm : waveletMatrix} {depth rem : Nat} {S : List Nat}
    (h : LayersAt wm depth (rem + 1) S) : add64 depth 1 = depth + 1 := by
  have h1 := h.depth_add
  have h2 := h.blen_le
  exact add64_eq (by rw [two64_eq]; omega)

theorem LayersAt.ne_blen {wm : waveletMatrix} {depth rem : Nat} {S : List Nat}
    (h : LayersAt wm depth (rem + 1) S) : depth ≠ wm.blen := by
  have h1 := h.depth_add
  omega

theorem layersOf_length (rem : Nat) (S : List Nat) : (layersOf rem S).length = rem := by
  induction rem generalizing S with
  | zero => rfl
  | succ n ih => simp [layersOf, ih]

theorem layersAt_buildFrom (T : List Nat) (hlen : T.length < two64) :
    LayersAt (buildFrom T) 0 (buildFrom T).blen T := by
  rw [buildFrom_eq]
  have hb := getBinaryLen_le (getDim T) (getDim_lt T)
  refine ⟨?_, by simp, hb, hlen⟩
  simp only [List.drop_zero]
  rw [buildLoop_eq _ (by rw [two64_eq]; omega) _ 0 (by simp), List.append_nil]

theorem buildFrom_layers_length (T : List Nat) :
    (buildFrom T).layers.length = (buildFrom T).blen := by
  rw [buildFrom_eq]
  have hb := getBinaryLen_le (getDim T) (getDim_lt T)
  simp only []
  rw [buildLoop_eq _ (by rw [two64_eq]; omega) _ 0 (by simp), layersOf_length]

theorem buildFrom_mod (T : List Nat) (hT : ∀ x ∈ T, x < two64 - 1) :
    ∀ x ∈ T, x % 2 ^ (buildFrom T).blen = x := by
  intro x hx
  apply Nat.mod_eq_of_lt
  rw [buildFrom_eq]
  exact Nat.lt_trans (getDim_gt T hT x hx) (lt_pow_getBinaryLen _ (getDim_lt T))

/-! ## Lookup -/

theorem lookupLoop_spec (wm : waveletMatrix) (rem : Nat) :
    ∀ (depth : Nat) (S : List Nat) (pos val x : Nat), LayersAt wm depth rem S →
      S[pos]? = some x → (val + 1) * 2 ^ rem ≤ two64 →
      wm.lookupLoop rem depth pos val = some (val * 2 ^ rem + x % 2 ^ rem) := by
  induction rem with
  | zero =>
    intro depth S pos val x _ _ _
    simp [waveletMatrix.lookupLoop, Nat.mod_one]
  | succ n ih =>
    intro depth S pos val x h hx hval
    have hpos : pos < S.length := by
      rcases Nat.lt_or_ge pos S.length with h1 | h1
      · exact h1
      · rw [List.getElem?_eq_none h1] at hx; cases hx
    have hp : 0 < 2 ^ n := by positivity
    rw [Nat.pow_succ] at hval
    have hv2 : 2 * val < two64 := by nlinarith
    have hd := down_getElem? n S pos x hx
    have hlen := h.len_lt
    unfold waveletMatrix.lookupLoop
    simp only [h.layer, bit_layer, hx, shl64_one hv2, Option.map_some', Option.bind_eq_bind,
      Option.some_bind, Option.pure_def]
    rw [mod_succ_of_bit n x]
    cases hb : bitOf n x
    · rw [hb] at hd
      simp only [Bool.not_false, if_true, rank_layer n S pos false (Nat.le_of_lt hpos),
        Option.some_bind]
      have hdn : (S.take pos).countP (sel n false) = down n S false pos := by simp [down]
      rw [hdn, ih (depth + 1) (part n S) _ (2 * val) x h.next hd.1 (by nlinarith)]
      simp only [Bool.false_eq_true, if_false, Nat.mul_zero, Nat.add_zero, Nat.pow_succ]
      congr 1
      ring
    · rw [hb] at hd
      simp only [Bool.not_true, Bool.false_eq_true, if_false,
        rank_layer n S pos true (Nat.le_of_lt hpos), Option.some_bind, zeroNum_layer,
        two_mul_or_one]
      have hdn : add64 (S.filter (sel n false)).length ((S.take pos).countP (sel n true))
          = down n S true pos := by
        have hle := down_le n S true pos
        have : (S.filter (sel n false)).length + (S.take pos).countP (sel n true)
            = down n S true pos := by simp [down]
        rw [add64_eq (by omega), this]
      rw [hdn, ih (depth + 1) (part n S) _ (2 * val + 1) x h.next hd.1 (by nlinarith)]
      simp only [if_true, Nat.pow_succ]
      congr 1
      ring

theorem Lookup_eq_getElem (T : List Nat) (hT : ∀ x ∈ T, x < two64 - 1)
    (hlen : T.length < two64) (i : Nat) (hi : i < T.length) :
    (buildFrom T).Lookup i = some T[i] := by
  have h := layersAt_buildFrom T hlen
  have hx : T[i]? = some T[i] := List.getElem?_eq_getElem hi
  have hb : (buildFrom T).blen ≤ 64 := h.blen_le
  have hpow : 2 ^ (buildFrom T).blen ≤ two64 := Nat.pow_le_pow_right (by decide) hb
  unfold waveletMatrix.Lookup
  rw [buildFrom_layers_length,
    lookupLoop_spec _ _ 0 T i 0 T[i] h hx (by simpa using hpow),
    buildFrom_mod T hT T[i] (List.getElem_mem hi)]
  simp

/-- C1: for every sequence `T` of values below `2^64 - 1` pushed in order and
built, `Lookup(i)` returns `T[i]` for every index `i < len(T)`. -/
theorem Lookup_buildFrom (T : List Nat) (hT : ∀ x ∈ T, x < 2 ^ 64 - 1)
    (hlen : T.length < 2 ^ 64) (i : Nat) (hi : i < T.length) :
    (buildFrom T).Lookup i = some T[i] :=
  Lookup_eq_getElem T hT hlen i hi

/-- Witness of `Lookup_buildFrom` on the sequence `[5, 2, 5, 1]` at index 1. -/
theorem Lookup_buildFrom_witness : (buildFrom [5, 2, 5, 1]).Lookup 1 = some 2 :=
  Lookup_buildFrom [5, 2, 5, 1] (by decide) (by decide) 1 (by decide)

/-! ## RankRange and Rank -/

theorem countP_mod_succ (n val : Nat) (L : List Nat) :
    (L.filter (sel n (bitOf n val))).countP (fun y => y % 2 ^ n == val % 2 ^ n)
      = L.countP (fun y => y % 2 ^ (n + 1) == val % 2 ^ (n + 1)) := by
  rw [List.countP_filter]
  apply List.countP_congr
  intro y _
  have h := mod_succ_eq_iff n y val
  simp only [sel, Bool.and_eq_true, beq_iff_eq]
  rw [h]
  exact And.comm

theorem rankRangeLoop_spec (wm : waveletMatrix) (rem : Nat) :
    ∀ (depth : Nat) (S : List Nat) (bp ep val : Nat), LayersAt wm depth rem S →
      bp ≤ ep → ep ≤ S.length →
      ∃ R, wm.rankRangeLoop rem depth ⟨bp, ep⟩ val = some R ∧ R.Bpos ≤ R.Epos ∧
        R.Epos ≤ S.length ∧
        R.Epos - R.Bpos = (slice S bp ep).countP (fun y => y % 2 ^ rem == val % 2 ^ rem) := by
  induction rem with
  | zero =>
    intro depth S bp ep val _ hle hep
    refine ⟨⟨bp, ep⟩, by simp [waveletMatrix.rankRangeLoop], hle, hep, ?_⟩
    simp [Nat.mod_one, slice_length S bp ep hep]
  | succ n ih =>
    intro depth S bp ep val h hle hep
    have hlen := h.len_lt
    obtain ⟨R, hR, h1, h2, h3⟩ := ih (depth + 1) (part n S)
      (down n S (bitOf n val) bp) (down n S (bitOf n val) ep) val h.next
      (down_mono n S _ hle) (by rw [length_part]; exact down_le n S _ ep)
    refine ⟨R, ?_, h1, by rw [length_part] at h2; exact h2, ?_⟩
    · unfold waveletMatrix.rankRangeLoop
      simp only [h.layer, h.msb, h.succ_depth, rank_layer n S bp _ (Nat.le_trans hle hep),
        rank_layer n S ep _ hep, zeroNum_layer, Option.bind_eq_bind, Option.some_bind]
      rw [← hR]
      cases hb : bitOf n val
      · simp [down]
      · have e1 := down_le n S true bp
        have e2 := down_le n S true ep
        simp only [down, if_true] at e1 e2
        simp only [if_true, down]
        rw [add64_eq (by omega), add64_eq (by omega), Nat.add_comm _ (List.length _),
          Nat.add_comm _ (List.length _)]
    · rw [h3, slice_part n S _ bp ep hle, countP_mod_succ]

theorem count_eq_countP_mod (T L : List Nat) (blen v : Nat) (hT : ∀ x ∈ T, x % 2 ^ blen = x)
    (hv : v < 2 ^ blen) (hL : ∀ x ∈ L, x ∈ T) :
    L.countP (fun y => y % 2 ^ blen == v % 2 ^ blen) = L.count v := by
  rw [List.count_eq_countP]
  apply List.countP_congr
  intro y hy
  rw [hT y (hL y hy), Nat.mod_eq_of_lt hv]

theorem mem_of_mem_slice {α : Type} (L : List α) (bp ep : Nat) (x : α)
    (h : x ∈ slice L bp ep) : x ∈ L :=
  List.mem_of_mem_take (List.mem_of_mem_drop h)

theorem dim_lt_pow (T : List Nat) : (buildFrom T).dim < 2 ^ (buildFrom T).blen := by
  rw [buildFrom_eq]
  exact lt_pow_getBinaryLen _ (getDim_lt T)

/-- C8: on the matrix built from `T` (values below `2^64 - 1`), for every range
`bp ≤ ep ≤ n` and every value `v < Dim()`, `RankRange(Range{bp, ep}, v)` returns
a range `R` with `R.Bpos ≤ R.Epos` whose width `R.Epos - R.Bpos` is the number
of indices `bp ≤ j < ep` with `T[j] = v`. -/
theorem RankRange_buildFrom (T : List Nat) (hT : ∀ x ∈ T, x < 2 ^ 64 - 1)
    (hlen : T.length < 2 ^ 64) (bp ep v : Nat) (hle : bp ≤ ep) (hep : ep ≤ T.length)
    (hv : v < (buildFrom T).Dim) :
    ∃ R, (buildFrom T).RankRange ⟨bp, ep⟩ v = some R ∧ R.Bpos ≤ R.Epos ∧
      R.Epos - R.Bpos = (slice T bp ep).count v := by
  obtain ⟨R, hR, h1, _, h3⟩ :=
    rankRangeLoop_spec (buildFrom T) (buildFrom T).blen 0 T bp ep v
      (layersAt_buildFrom T hlen) hle hep
  refine ⟨R, hR, h1, ?_⟩
  rw [h3]
  exact count_eq_countP_mod T _ _ v (buildFrom_mod T hT)
    (Nat.lt_trans hv (dim_lt_pow T)) (mem_of_mem_slice T bp ep)

/-- Witness of `RankRange_buildFrom` on `[5, 2, 5, 1, 5]`, range `[1, 5)`, value 5. -/
theorem RankRange_buildFrom_witness :
    ∃ R, (buildFrom [5, 2, 5, 1, 5]).RankRange ⟨1, 5⟩ 5 = some R ∧ R.Bpos ≤ R.Epos ∧
      R.Epos - R.Bpos = (slice [5, 2, 5, 1, 5] 1 5).count 5 :=
  RankRange_buildFrom [5, 2, 5, 1, 5] (by decide) (by decide) 1 5 5 (by decide) (by decide)
    (by decide)

theorem Rank_eq_count (T : List Nat) (hT : ∀ x ∈ T, x < two64 - 1)
    (hlen : T.length < two64) (i v : Nat) (hi : i ≤ T.length)
    (hv : v < 2 ^ (buildFrom T).blen) :
    (buildFrom T).Rank i v = some ((T.take i).count v) := by
  obtain ⟨R, hR, h1, h2, h3⟩ :=
    rankRangeLoop_spec (buildFrom T) (buildFrom T).blen 0 T 0 i v
      (layersAt_buildFrom T hlen) (Nat.zero_le i) hi
  unfold waveletMatrix.Rank
  rw [show (buildFrom T).RankRange ⟨0, i⟩ v = some R from hR]
  simp only [Option.bind_eq_bind, Option.some_bind, Option.pure_def]
  rw [sub64_eq h1 (by omega), h3, slice_zero]
  congr 1
  exact count_eq_countP_mod T _ _ v (buildFrom_mod T hT) hv
    (fun x hx => List.mem_of_mem_take hx)

/-- C2: on the matrix built from `T` (values below `2^64 - 1`), for every
position `i ≤ n` and every value `v < Dim()`, `Rank(i, v)` is the number of
indices `j < i` with `T[j] = v`. -/
theorem Rank_buildFrom (T : List Nat) (hT : ∀ x ∈ T, x < 2 ^ 64 - 1)
    (hlen : T.length < 2 ^ 64) (i v : Nat) (hi : i ≤ T.length)
    (hv : v < (buildFrom T).Dim) :
    (buildFrom T).Rank i v = some ((T.take i).count v) :=
  Rank_eq_count T hT hlen i v hi (Nat.lt_trans hv (dim_lt_pow T))

/-- Witness of `Rank_buildFrom` on `[5, 2, 5, 1, 5]`, position 4, value 5. -/
theorem Rank_buildFrom_witness : (buildFrom [5, 2, 5, 1, 5]).Rank 4 5 = some 2 :=
  Rank_buildFrom [5, 2, 5, 1, 5] (by decide) (by decide) 4 5 (by decide) (by decide)

/-! ## Select -/

theorem selectHelper_spec (wm : waveletMatrix) (rem : Nat) :
    ∀ (depth : Nat) (S : List Nat) (pos j r val x : Nat), LayersAt wm depth rem S →
      pos ≤ j → S[j]? = some x → x % 2 ^ rem = val % 2 ^ rem →
      (slice S pos j).countP (fun y => y % 2 ^ rem == val % 2 ^ rem) = r →
      wm.selectHelper rem r val pos depth = some j := by
  induction rem with
  | zero =>
    intro depth S pos j r val x h hle hx _ hr
    have hj : j < S.length := by
      rcases Nat.lt_or_ge j S.length with h1 | h1
      · exact h1
      · rw [List.getElem?_eq_none h1] at hx; cases hx
    have hlen := h.len_lt
    have hd : depth = wm.blen := by have := h.depth_add; omega
    have hr2 : r = j - pos := by
      rw [← hr]
      simp [Nat.mod_one, slice_length S pos j (Nat.le_of_lt hj)]
    unfold waveletMatrix.selectHelper
    rw [if_pos hd, add64_eq (by omega), hr2]
    congr 1
    omega
  | succ n ih =>
    intro depth S pos j r val x h hle hx hmod hr
    have hj : j < S.length := by
      rcases Nat.lt_or_ge j S.length with h1 | h1
      · exact h1
      · rw [List.getElem?_eq_none h1] at hx; cases hx
    have hlen := h.len_lt
    have hbit : bitOf n x = bitOf n val := ((mod_succ_eq_iff n x val).1 hmod).1
    have hmod2 : x % 2 ^ n = val % 2 ^ n := ((mod_succ_eq_iff n x val).1 hmod).2
    have hd := down_getElem? n S j x hx
    rw [hbit] at hd
    have hcnt : (slice (part n S) (down n S (bitOf n val) pos)
        (down n S (bitOf n val) j)).countP (fun y => y % 2 ^ n == val % 2 ^ n) = r := by
      rw [slice_part n S _ pos j hle, countP_mod_succ, hr]
    have hrec := ih (depth + 1) (part n S) (down n S (bitOf n val) pos)
      (down n S (bitOf n val) j) r val x h.next (down_mono n S _ hle) hd.1 hmod2 hcnt
    have hsel := select_layer n S j x (bitOf n val) hx hbit
    unfold waveletMatrix.selectHelper
    rw [if_neg h.ne_blen]
    simp only [h.layer, h.msb, h.succ_depth, rank_layer n S pos _ (by omega), zeroNum_layer,
      Option.bind_eq_bind, Option.some_bind]
    cases hb : bitOf n val
    · rw [hb] at hrec hsel
      have e : (S.take pos).countP (sel n false) = down n S false pos := by simp [down]
      simp only [Bool.not_false, if_true]
      rw [e, hrec]
      simp only [Option.some_bind]
      rw [← hsel]
      simp [down]
    · rw [hb] at hrec hsel
      have e1 := down_le n S true pos
      have e2 := down_le n S true j
      have e : add64 ((S.take pos).countP (sel n true)) (S.filter (sel n false)).length
          = down n S true pos := by
        simp only [down, if_true] at e1 ⊢
        rw [add64_eq (by omega), Nat.add_comm]
      simp only [Bool.not_true, Bool.false_eq_true, if_false]
      rw [e, hrec]
      simp only [Option.some_bind]
      rw [← hsel]
      congr 1
      simp only [down, if_true] at e2 ⊢
      rw [sub64_eq (by omega) (by omega)]
      omega

theorem exists_occurrence (T : List Nat) (v r : Nat) (h : r < T.count v) :
    ∃ j, T[j]? = some v ∧ (T.take j).count v = r := by
  induction T generalizing r with
  | nil => simp at h
  | cons x xs ih =>
    by_cases hxv : x = v
    · subst hxv
      rcases Nat.eq_zero_or_pos r with hr | hr
      · exact ⟨0, by simp, by simp [hr]⟩
      · rw [List.count_cons_self] at h
        obtain ⟨j, hj1, hj2⟩ := ih (r - 1) (by omega)
        refine ⟨j + 1, by simpa using hj1, ?_⟩
        rw [List.take_succ_cons, List.count_cons_self, hj2]
        omega
    · rw [List.count_cons_of_ne (Ne.symm hxv)] at h
      obtain ⟨j, hj1, hj2⟩ := ih r h
      refine ⟨j + 1, by simpa using hj1, ?_⟩
      rw [List.take_succ_cons, List.count_cons_of_ne (Ne.symm hxv), hj2]

theorem Select_of_occurrence (T : List Nat) (hT : ∀ x ∈ T, x < two64 - 1)
    (hlen : T.length < two64) (j v : Nat) (hj : T[j]? = some v) :
    (buildFrom T).Select ((T.take j).count v) v = some j := by
  have hmem : v ∈ T := List.getElem?_mem hj
  have hv : v < 2 ^ (buildFrom T).blen := by
    have := buildFrom_mod T hT v hmem
    rw [← this]
    exact Nat.mod_lt _ (by positivity)
  unfold waveletMatrix.Select
  apply selectHelper_spec (buildFrom T) (buildFrom T).blen 0 T 0 j _ v v
    (layersAt_buildFrom T hlen) (Nat.zero_le j) hj rfl
  rw [slice_zero]
  exact count_eq_countP_mod T _ _ v (buildFrom_mod T hT) hv
    (fun x hx => List.mem_of_mem_take hx)

/-- C3: on the matrix built from `T` (values below `2^64 - 1`),
`Select(Rank(i, T[i]), T[i]) = i` for every index `i < n`; and whenever `v`
occurs more than `r` times in `T`, `Select(r, v)` returns the position `j` of
the `(r+1)`-th occurrence of `v`: `T[j] = v` and exactly `r` occurrences of `v`
lie before `j`. -/
theorem Select_buildFrom (T : List Nat) (hT : ∀ x ∈ T, x < 2 ^ 64 - 1)
    (hlen : T.length < 2 ^ 64) :
    (∀ (i : Nat) (hi : i < T.length),
      ((buildFrom T).Rank i T[i]).bind (fun r => (buildFrom T).Select r T[i]) = some i) ∧
    (∀ v r : Nat, r < T.count v →
      ∃ j, (buildFrom T).Select r v = some j ∧ T[j]? = some v ∧ (T.take j).count v = r) := by
  constructor
  · intro i hi
    have hmem : T[i] ∈ T := List.getElem_mem hi
    have hv : T[i] < 2 ^ (buildFrom T).blen := by
      have := buildFrom_mod T hT T[i] hmem
      rw [← this]
      exact Nat.mod_lt _ (by positivity)
    rw [Rank_eq_count T hT hlen i T[i] (Nat.le_of_lt hi) hv]
    simp only [Option.some_bind]
    exact Select_of_occurrence T hT hlen i T[i] (List.getElem?_eq_getElem hi)
  · intro v r hr
    obtain ⟨j, hj1, hj2⟩ := exists_occurrence T v r hr
    refine ⟨j, ?_, hj1, hj2⟩
    rw [← hj2]
    exact Select_of_occurrence T hT hlen j v hj1

/-- Witness of `Select_buildFrom` on the sequence `[5, 2, 5, 1, 5]` at index 2. -/
theorem Select_buildFrom_witness :
    ((buildFrom [5, 2, 5, 1, 5]).Rank 2 5).bind
      (fun r => (buildFrom [5, 2, 5, 1, 5]).Select r 5) = some 2 :=
  (Select_buildFrom [5, 2, 5, 1, 5] (by decide) (by decide)).1 2 (by decide)

/-! ## LookupAndRank -/

theorem lookupAndRankLoop_spec (wm : waveletMatrix) (rem : Nat) :
    ∀ (depth : Nat) (S : List Nat) (val bp ep x : Nat), LayersAt wm depth rem S →
      bp ≤ ep → S[ep]? = some x → (val + 1) * 2 ^ rem ≤ two64 →
      wm.lookupAndRankLoop rem depth val bp ep
        = some (val * 2 ^ rem + x % 2 ^ rem,
            (slice S bp ep).countP (fun y => y % 2 ^ rem == x % 2 ^ rem)) := by
  induction rem with
  | zero =>
    intro depth S val bp ep x h hle hx _
    have hep : ep < S.length := by
      rcases Nat.lt_or_ge ep S.length with h1 | h1
      · exact h1
      · rw [List.getElem?_eq_none h1] at hx; cases hx
    have hlen := h.len_lt
    simp [waveletMatrix.lookupAndRankLoop, Nat.mod_one, slice_length S bp ep (Nat.le_of_lt hep),
      sub64_eq hle (Nat.lt_trans hep hlen)]
  | succ n ih =>
    intro depth S val bp ep x h hle hx hval
    have hep : ep < S.length := by
      rcases Nat.lt_or_ge ep S.length with h1 | h1
      · exact h1
      · rw [List.getElem?_eq_none h1] at hx; cases hx
    have hlen := h.len_lt
    have hp : 0 < 2 ^ n := by positivity
    rw [Nat.pow_succ] at hval
    have hv2 : 2 * val < two64 := by nlinarith
    have hd := down_getElem? n S ep x hx
    have hrec := fun v hv => ih (depth + 1) (part n S) v (down n S (bitOf n x) bp)
      (down n S (bitOf n x) ep) x h.next (down_mono n S _ hle) hd.1 hv
    rw [slice_part n S _ bp ep hle, countP_mod_succ] at hrec
    unfold waveletMatrix.lookupAndRankLoop
    simp only [h.layer, bit_layer, hx, h.succ_depth, shl64_one hv2, Option.map_some',
      rank_layer n S bp _ (by omega), rank_layer n S ep _ (Nat.le_of_lt hep), zeroNum_layer,
      two_mul_or_one, Option.bind_eq_bind, Option.some_bind]
    have hm := mod_succ_of_bit n x
    cases hb : bitOf n x
    · rw [hb] at hrec hm
      have e1 : (S.take bp).countP (sel n false) = down n S false bp := by simp [down]
      have e2 : (S.take ep).countP (sel n false) = down n S false ep := by simp [down]
      simp only [Bool.false_eq_true, if_false]
      rw [e1, e2, hrec (2 * val) (by nlinarith)]
      refine congrArg some (Prod.ext ?_ rfl)
      simp only [Bool.false_eq_true, if_false, Nat.mul_zero, Nat.add_zero] at hm
      simp only [hm]
      rw [Nat.pow_succ]
      ring
    · rw [hb] at hrec hm
      have l1 := down_le n S true bp
      have l2 := down_le n S true ep
      have e1 : add64 ((S.take bp).countP (sel n true)) (S.filter (sel n false)).length
          = down n S true bp := by
        simp only [down, if_true] at l1 ⊢
        rw [add64_eq (by omega), Nat.add_comm]
      have e2 : add64 ((S.take ep).countP (sel n true)) (S.filter (sel n false)).length
          = down n S true ep := by
        simp only [down, if_true] at l2 ⊢
        rw [add64_eq (by omega), Nat.add_comm]
      simp only [if_true]
      rw [e1, e2, hrec (2 * val + 1) (by nlinarith)]
      refine congrArg some (Prod.ext ?_ rfl)
      simp only [if_true, Nat.mul_one] at hm
      simp only [hm]
      rw [Nat.pow_succ]
      ring

/-- C7: on the matrix built from `T` (values below `2^64 - 1`), for every index
`i < n`, `LookupAndRank(i)` returns the pair `(Lookup(i), Rank(i, Lookup(i)))`,
which is `(T[i], number of j < i with T[j] = T[i])`. -/
theorem LookupAndRank_buildFrom (T : List Nat) (hT : ∀ x ∈ T, x < 2 ^ 64 - 1)
    (hlen : T.length < 2 ^ 64) (i : Nat) (hi : i < T.length) :
    ∃ v r, (buildFrom T).Lookup i = some v ∧ (buildFrom T).Rank i v = some r ∧
      (buildFrom T).LookupAndRank i = some (v, r) ∧
      v = T[i] ∧ r = (T.take i).count T[i] := by
  have h := layersAt_buildFrom T hlen
  have hmem : T[i] ∈ T := List.getElem_mem hi
  have hmod := buildFrom_mod T hT T[i] hmem
  have hv : T[i] < 2 ^ (buildFrom T).blen := by
    rw [← hmod]
    exact Nat.mod_lt _ (by positivity)
  have hpow : 2 ^ (buildFrom T).blen ≤ two64 := Nat.pow_le_pow_right (by decide) h.blen_le
  refine ⟨T[i], (T.take i).count T[i], Lookup_eq_getElem T hT hlen i hi,
    Rank_eq_count T hT hlen i T[i] (Nat.le_of_lt hi) hv, ?_, rfl, rfl⟩
  unfold waveletMatrix.LookupAndRank
  rw [lookupAndRankLoop_spec _ _ 0 T 0 0 i T[i] h (Nat.zero_le i)
    (List.getElem?_eq_getElem hi) (by simpa using hpow), hmod, slice_zero]
  have hc := count_eq_countP_mod T (T.take i) _ T[i] (buildFrom_mod T hT) hv
    (fun x hx => List.mem_of_mem_take hx)
  rw [hmod] at hc
  rw [hc]
  simp

/-- Witness of `LookupAndRank_buildFrom` on `[5, 2, 5, 1, 5]` at index 4. -/
theorem LookupAndRank_buildFrom_witness :
    ∃ v r, (buildFrom [5, 2, 5, 1, 5]).Lookup 4 = some v ∧
      (buildFrom [5, 2, 5, 1, 5]).Rank 4 v = some r ∧
      (buildFrom [5, 2, 5, 1, 5]).LookupAndRank 4 = some (v, r) ∧
      v = 5 ∧ r = 2 :=
  LookupAndRank_buildFrom [5, 2, 5, 1, 5] (by decide) (by decide) 4 (by decide)

/-! ## Num, Dim and the number of layers -/

theorem foldl_max_mem (vals : List Nat) (dim : Nat) :
    vals.foldl (fun d x => max d (x + 1)) dim = dim ∨
      ∃ m ∈ vals, vals.foldl (fun d x => max d (x + 1)) dim = m + 1 := by
  induction vals generalizing dim with
  | nil => simp
  | cons v vs ih =>
    rw [List.foldl_cons]
    rcases ih (max dim (v + 1)) with h | ⟨m, hm, h⟩
    · rw [h]
      rcases Nat.le_total dim (v + 1) with hle | hle
      · right
        exact ⟨v, by simp, Nat.max_eq_right hle⟩
      · left
        exact Nat.max_eq_left hle
    · right
      exact ⟨m, by simp [hm], h⟩

theorem getDim_max (T : List Nat) (hT : ∀ x ∈ T, x < two64 - 1) (hne : T ≠ []) :
    ∃ m ∈ T, (∀ x ∈ T, x ≤ m) ∧ getDim T = 1 + m := by
  have hgt := getDim_gt T hT
  unfold getDim at hgt ⊢
  rw [getDimLoop_eq T 0 hT] at hgt ⊢
  rcases foldl_max_mem T 0 with h | ⟨m, hm, h⟩
  · obtain ⟨y, hy⟩ := List.exists_mem_of_ne_nil T hne
    have := hgt y hy
    omega
  · refine ⟨m, hm, ?_, by omega⟩
    intro x hx
    have := hgt x hx
    omega

/-- C9: the matrix built from `T` (values below `2^64 - 1`) reports
`Num() = len(T)`; `Dim() = 1 + max(T)` when `T` is non-empty, where `max(T)` is
an element of `T` that bounds every element; and `Dim() = 0` when `T` is empty. -/
theorem Num_Dim_buildFrom (T : List Nat) (hT : ∀ x ∈ T, x < 2 ^ 64 - 1)
    (hlen : T.length < 2 ^ 64) :
    (buildFrom T).Num = T.length ∧
      (T ≠ [] → ∃ m ∈ T, (∀ x ∈ T, x ≤ m) ∧ (buildFrom T).Dim = 1 + m) ∧
      (T = [] → (buildFrom T).Dim = 0) := by
  refine ⟨?_, ?_, ?_⟩
  · show (buildFrom T).num = T.length
    rw [buildFrom_eq]
    exact Nat.mod_eq_of_lt hlen
  · intro hne
    show ∃ m ∈ T, (∀ x ∈ T, x ≤ m) ∧ (buildFrom T).dim = 1 + m
    rw [buildFrom_eq]
    exact getDim_max T hT hne
  · intro he
    subst he
    rfl

/-- Witness of `Num_Dim_buildFrom` on the sequence `[5, 2, 5, 1, 5]`. -/
theorem Num_Dim_buildFrom_witness : (buildFrom [5, 2, 5, 1, 5]).Num = 5 :=
  (Num_Dim_buildFrom [5, 2, 5, 1, 5] (by decide) (by decide)).1

theorem clog_succ_eq_size (d : Nat) : Nat.clog 2 (d + 1) = Nat.size d := by
  apply Nat.le_antisymm
  · rw [← Nat.le_pow_iff_clog_le (by decide)]
    exact Nat.lt_size_self d
  · rw [Nat.size_le]
    exact Nat.le_pow_clog (by decide) (d + 1)

/-- C10, as amended: for every input sequence `T` the number of layers `blen` of
the built matrix is the number of binary digits of `sigma = Dim()`, that is
`ceil(log2(sigma + 1))`, and it is 0 exactly when `sigma = 0`; the sequence
`[3, 3, 3, 3, 3]` gives `sigma = 4` and 3 layers. -/
theorem blen_buildFrom :
    (∀ T : List Nat, (buildFrom T).blen = Nat.clog 2 ((buildFrom T).Dim + 1) ∧
      ((buildFrom T).blen = 0 ↔ (buildFrom T).Dim = 0)) ∧
    (buildFrom [3, 3, 3, 3, 3]).Dim = 4 ∧ (buildFrom [3, 3, 3, 3, 3]).blen = 3 := by
  refine ⟨?_, by decide, by decide⟩
  intro T
  have h : (buildFrom T).blen = Nat.size (buildFrom T).Dim := by
    show (buildFrom T).blen = Nat.size (buildFrom T).dim
    rw [buildFrom_eq]
    exact getBinaryLen_eq _ (getDim_lt T)
  refine ⟨by rw [clog_succ_eq_size]; exact h, ?_⟩
  rw [h]
  exact Nat.size_eq_zero

/-- C10 fails as stated: `[3, 3, 3, 3, 3]` gives `sigma = 4` and 3 layers, while
`ceil(log2(4)) = 2`. -/
theorem blen_ne_clog_dim :
    (buildFrom [3, 3, 3, 3, 3]).Dim = 4 ∧ Nat.clog 2 4 = 2 ∧
      (buildFrom [3, 3, 3, 3, 3]).blen ≠ Nat.clog 2 (buildFrom [3, 3, 3, 3, 3]).Dim := by
  have h1 : (buildFrom [3, 3, 3, 3, 3]).Dim = 4 := by decide
  have h2 : Nat.clog 2 4 = 2 := Nat.clog_pow 2 2 (by decide)
  refine ⟨h1, h2, ?_⟩
  rw [h1, h2]
  decide

/-! ## Quantile -/

theorem sub64_add64 (a b c : Nat) (hc : c ≤ a + b) (h : a + b - c < two64) :
    sub64 (add64 a b) c = a + b - c := by
  unfold sub64 add64
  rw [two64_eq] at *
  omega

theorem countP_sel_add (n : Nat) (L : List Nat) :
    L.countP (sel n false) + L.countP (sel n true) = L.length := by
  rw [List.countP_eq_length_filter, List.countP_eq_length_filter, filter_length_add]

theorem countP_lt_zero_side (n w : Nat) (hw : w < 2 ^ n) (L : List Nat) :
    L.countP (fun y => decide (y % 2 ^ (n + 1) < w))
      = (L.filter (sel n false)).countP (fun y => decide (y % 2 ^ n < w)) := by
  rw [List.countP_filter]
  apply List.countP_congr
  intro y _
  have hm := mod_succ_of_bit n y
  cases hb : bitOf n y <;> simp [sel, hb] at hm ⊢ <;> omega

theorem countP_le_zero_side (n w : Nat) (hw : w < 2 ^ n) (L : List Nat) :
    L.countP (fun y => decide (y % 2 ^ (n + 1) ≤ w))
      = (L.filter (sel n false)).countP (fun y => decide (y % 2 ^ n ≤ w)) := by
  rw [List.countP_filter]
  apply List.countP_congr
  intro y _
  have hm := mod_succ_of_bit n y
  cases hb : bitOf n y <;> simp [sel, hb] at hm ⊢ <;> omega

theorem countP_lt_one_side (n w : Nat) (L : List Nat) :
    L.countP (fun y => decide (y % 2 ^ (n + 1) < 2 ^ n + w))
      = L.countP (sel n false)
        + (L.filter (sel n true)).countP (fun y => decide (y % 2 ^ n < w)) := by
  induction L with
  | nil => simp
  | cons y ys ih =>
    have hm := mod_succ_of_bit n y
    have hy : y % 2 ^ n < 2 ^ n := Nat.mod_lt _ (by positivity)
    cases hb : bitOf n y
    · simp only [hb, Bool.false_eq_true, if_false, Nat.mul_zero, Nat.add_zero] at hm
      have h1 : y % 2 ^ (n + 1) < 2 ^ n + w := by omega
      simp [List.countP_cons, List.filter_cons, sel, hb, ih, h1]
      omega
    · simp only [hb, if_true, Nat.mul_one] at hm
      by_cases h1 : y % 2 ^ n < w
      · have h2 : y % 2 ^ (n + 1) < 2 ^ n + w := by omega
        simp [List.countP_cons, List.filter_cons, sel, hb, ih, h1, h2]
        omega
      · have h2 : ¬ y % 2 ^ (n + 1) < 2 ^ n + w := by omega
        simp [List.countP_cons, List.filter_cons, sel, hb, ih, h1, h2]

theorem countP_le_one_side (n w : Nat) (L : List Nat) :
    L.countP (fun y => decide (y % 2 ^ (n + 1) ≤ 2 ^ n + w))
      = L.countP (sel n false)
        + (L.filter (sel n true)).countP (fun y => decide (y % 2 ^ n ≤ w)) := by
  induction L with
  | nil => simp
  | cons y ys ih =>
    have hm := mod_succ_of_bit n y
    have hy : y % 2 ^ n < 2 ^ n := Nat.mod_lt _ (by positivity)
    cases hb : bitOf n y
    · simp only [hb, Bool.false_eq_true, if_false, Nat.mul_zero, Nat.add_zero] at hm
      have h1 : y % 2 ^ (n + 1) ≤ 2 ^ n + w := by omega
      simp [List.countP_cons, List.filter_cons, sel, hb, ih, h1]
      omega
    · simp only [hb, if_true, Nat.mul_one] at hm
      by_cases h1 : y % 2 ^ n ≤ w
      · have h2 : y % 2 ^ (n + 1) ≤ 2 ^ n + w := by omega
        simp [List.countP_cons, List.filter_cons, sel, hb, ih, h1, h2]
        omega
      · have h2 : ¬ y % 2 ^ (n + 1) ≤ 2 ^ n + w := by omega
        simp [List.countP_cons, List.filter_cons, sel, hb, ih, h1, h2]

theorem down_true_eq (n : Nat) (S : List Nat) (i : Nat) (hi : i ≤ S.length)
    (hlen : S.length < two64) :
    sub64 (add64 (S.filter (sel n false)).length i) ((S.take i).countP (sel n false))
      = down n S true i := by
  have h1 := countP_sel_add n (S.take i)
  have h2 : (S.take i).length = i := by rw [List.length_take]; omega
  have h3 := down_le n S true i
  simp only [down, if_true] at h3 ⊢
  rw [sub64_add64 _ _ _ (by omega) (by omega)]
  omega

theorem quantileLoop_spec (wm : waveletMatrix) (rem : Nat) :
    ∀ (depth : Nat) (S : List Nat) (val bp ep k : Nat), LayersAt wm depth rem S →
      bp ≤ ep → ep ≤ S.length → k < ep - bp → (val + 1) * 2 ^ rem ≤ two64 →
      ∃ w, w < 2 ^ rem ∧ wm.quantileLoop rem depth val bp ep k = some (val * 2 ^ rem + w) ∧
        (slice S bp ep).countP (fun y => decide (y % 2 ^ rem < w)) ≤ k ∧
        k < (slice S bp ep).countP (fun y => decide (y % 2 ^ rem ≤ w)) := by
  induction rem with
  | zero =>
    intro depth S val bp ep k _ _ hep hk _
    refine ⟨0, by simp, by simp [waveletMatrix.quantileLoop], by simp, ?_⟩
    simp [Nat.mod_one, slice_length S bp ep hep]
    omega
  | succ n ih =>
    intro depth S val bp ep k h hle hep hk hval
    have hlen := h.len_lt
    have hp : 0 < 2 ^ n := by positivity
    rw [Nat.pow_succ] at hval
    have hv2 : 2 * val < two64 := by nlinarith
    have hzb : (S.take bp).countP (sel n false) = down n S false bp := by simp [down]
    have hze : (S.take ep).countP (sel n false) = down n S false ep := by simp [down]
    have hz := down_sub n S false bp ep hle
    have hmono := down_mono n S false hle
    have hdle := down_le n S false ep
    have hsum := countP_sel_add n (slice S bp ep)
    rw [slice_length S bp ep hep] at hsum
    unfold waveletMatrix.quantileLoop
    simp only [h.layer, shl64_one hv2, rank_layer n S bp false (by omega),
      rank_layer n S ep false hep, zeroNum_layer, two_mul_or_one, Option.bind_eq_bind,
      Option.some_bind]
    rw [hzb, hze, sub64_eq hmono (by omega), hz]
    by_cases hkz : k < (slice S bp ep).countP (sel n false)
    · rw [if_pos hkz]
      obtain ⟨w, hw, hq, hc1, hc2⟩ := ih (depth + 1) (part n S) (2 * val)
        (down n S false bp) (down n S false ep) k h.next hmono
        (by rw [length_part]; exact hdle) (by omega) (by nlinarith)
      rw [slice_part n S false bp ep hle] at hc1 hc2
      refine ⟨w, by rw [Nat.pow_succ]; omega, ?_, ?_, ?_⟩
      · rw [hq, Nat.pow_succ]
        congr 1
        ring
      · rw [countP_lt_zero_side n w hw]; exact hc1
      · rw [countP_le_zero_side n w hw]; exact hc2
    · rw [if_neg hkz, ← hzb, ← hze, down_true_eq n S bp (by omega) hlen,
        down_true_eq n S ep hep hlen]
      have hk64 : k < two64 := by omega
      rw [sub64_eq (by omega) hk64]
      have ht := down_sub n S true bp ep hle
      obtain ⟨w, hw, hq, hc1, hc2⟩ := ih (depth + 1) (part n S) (2 * val + 1)
        (down n S true bp) (down n S true ep)
        (k - (slice S bp ep).countP (sel n false)) h.next (down_mono n S true hle)
        (by rw [length_part]; exact down_le n S true ep) (by omega) (by nlinarith)
      rw [slice_part n S true bp ep hle] at hc1 hc2
      refine ⟨2 ^ n + w, by rw [Nat.pow_succ]; omega, ?_, ?_, ?_⟩
      · rw [hq, Nat.pow_succ]
        congr 1
        ring
      · rw [countP_lt_one_side]; omega
      · rw [countP_le_one_side]; omega

/-! ### The `k`-th element of a sorted list -/

theorem counts_of_sorted_append (A B : List Nat) (u : Nat)
    (hs : (A ++ u :: B).Sorted (· ≤ ·)) :
    (A ++ u :: B).countP (fun y => decide (y < u)) ≤ A.length ∧
      A.length < (A ++ u :: B).countP (fun y => decide (y ≤ u)) := by
  have hp := List.pairwise_append.1 hs
  have hB : ∀ b ∈ B, u ≤ b := (List.sorted_cons.1 hp.2.1).1
  have hA : ∀ a ∈ A, a ≤ u := fun a ha => hp.2.2 a ha u (by simp)
  have h1 : B.countP (fun y => decide (y < u)) = 0 := by
    rw [List.countP_eq_zero]
    intro b hb
    have := hB b hb
    simp only [decide_eq_true_eq]
    omega
  have h2 : A.countP (fun y => decide (y ≤ u)) = A.length := by
    rw [List.countP_eq_length]
    intro a ha
    simpa using hA a ha
  have h3 : A.countP (fun y => decide (y < u)) ≤ A.length := List.countP_le_length _
  constructor
  · rw [List.countP_append, List.countP_cons, h1]
    simp only [lt_self_iff_false, decide_False, Bool.false_eq_true, if_false]
    omega
  · rw [List.countP_append, List.countP_cons, h2]
    simp only [le_refl, decide_True, if_true]
    omega

theorem getElem?_of_sorted_counts (L : List Nat) (hs : L.Sorted (· ≤ ·)) (k v : Nat)
    (h1 : L.countP (fun y => decide (y < v)) ≤ k)
    (h2 : k < L.countP (fun y => decide (y ≤ v))) : L[k]? = some v := by
  have hk : k < L.length := Nat.lt_of_lt_of_le h2 (List.countP_le_length _)
  have hsplit : L = L.take k ++ L[k] :: L.drop (k + 1) := by
    rw [List.getElem_cons_drop, List.take_append_drop]
  have hlen : (L.take k).length = k := by rw [List.length_take]; omega
  have hc := counts_of_sorted_append (L.take k) (L.drop (k + 1)) L[k] (by rw [← hsplit]; exact hs)
  rw [← hsplit, hlen] at hc
  rw [List.getElem?_eq_getElem hk]
  congr 1
  rcases Nat.lt_trichotomy L[k] v with hlt | heq | hgt
  · have hm : L.countP (fun y => decide (y ≤ L[k])) ≤ L.countP (fun y => decide (y < v)) := by
      apply List.countP_mono_left
      intro x _ hx
      simp only [decide_eq_true_eq] at hx ⊢
      omega
    omega
  · exact heq
  · have hm : L.countP (fun y => decide (y ≤ v)) ≤ L.countP (fun y => decide (y < L[k])) := by
      apply List.countP_mono_left
      intro x _ hx
      simp only [decide_eq_true_eq] at hx ⊢
      omega
    omega

/-- C4: on the matrix built from `T` (values below `2^64 - 1`), for every range
`bp ≤ ep ≤ n` and every `k < ep - bp`, `Quantile(Range{bp, ep}, k)` is the
element at index `k` of `T[bp..ep)` sorted in ascending order. -/
theorem Quantile_buildFrom (T : List Nat) (hT : ∀ x ∈ T, x < 2 ^ 64 - 1)
    (hlen : T.length < 2 ^ 64) (bp ep k : Nat) (hle : bp ≤ ep) (hep : ep ≤ T.length)
    (hk : k < ep - bp) :
    ∃ v, (buildFrom T).Quantile ⟨bp, ep⟩ k = some v ∧
      ((slice T bp ep).insertionSort (· ≤ ·))[k]? = some v := by
  have h := layersAt_buildFrom T hlen
  have hpow : 2 ^ (buildFrom T).blen ≤ two64 := Nat.pow_le_pow_right (by decide) h.blen_le
  obtain ⟨w, _, hq, hc1, hc2⟩ :=
    quantileLoop_spec (buildFrom T) (buildFrom T).blen 0 T 0 bp ep k h hle hep hk
      (by simpa using hpow)
  refine ⟨w, ?_, ?_⟩
  · unfold waveletMatrix.Quantile
    rw [buildFrom_layers_length]
    simpa using hq
  · have hmod := buildFrom_mod T hT
    have e1 : (slice T bp ep).countP (fun y => decide (y % 2 ^ (buildFrom T).blen < w))
        = (slice T bp ep).countP (fun y => decide (y < w)) := by
      apply List.countP_congr
      intro y hy
      rw [hmod y (mem_of_mem_slice T bp ep y hy)]
    have e2 : (slice T bp ep).countP (fun y => decide (y % 2 ^ (buildFrom T).blen ≤ w))
        = (slice T bp ep).countP (fun y => decide (y ≤ w)) := by
      apply List.countP_congr
      intro y hy
      rw [hmod y (mem_of_mem_slice T bp ep y hy)]
    rw [e1] at hc1
    rw [e2] at hc2
    have hperm := List.perm_insertionSort (· ≤ ·) (slice T bp ep)
    apply getElem?_of_sorted_counts _ (List.sorted_insertionSort (· ≤ ·) _)
    · rw [hperm.countP_eq]; exact hc1
    · rw [hperm.countP_eq]; exact hc2

/-- Witness of `Quantile_buildFrom` on `[5, 2, 5, 1, 5, 2, 3, 0, 1, 4]`, range
`[0, 10)`, `k = 5`. -/
theorem Quantile_buildFrom_witness :
    ∃ v, (buildFrom [5, 2, 5, 1, 5, 2, 3, 0, 1, 4]).Quantile ⟨0, 10⟩ 5 = some v ∧
      ((slice [5, 2, 5, 1, 5, 2, 3, 0, 1, 4] 0 10).insertionSort (· ≤ ·))[5]? = some v :=
  Quantile_buildFrom [5, 2, 5, 1, 5, 2, 3, 0, 1, 4] (by decide) (by decide) 0 10 5
    (by decide) (by decide) (by decide)

/-! ## Intersect -/

theorem down_true_eq2 (n : Nat) (S : List Nat) (i : Nat) (hi : i ≤ S.length)
    (hlen : S.length < two64) :
    add64 (sub64 i ((S.take i).countP (sel n false))) (S.filter (sel n false)).length
      = down n S true i := by
  have h1 := countP_sel_add n (S.take i)
  have h2 : (S.take i).length = i := by rw [List.length_take]; omega
  have h3 := down_le n S true i
  simp only [down, if_true] at h3 ⊢
  rw [sub64_eq (by omega) (by omega), add64_eq (by omega)]
  omega

theorem splitRanges_eq (n : Nat) (S : List Nat) (hlen : S.length < two64) (Rs : List Range)
    (hRs : ∀ r ∈ Rs, r.valid S.length) (Z O : List Range) :
    waveletMatrix.splitRanges (RSDic.mk (S.map (bitOf n))) Rs Z O
      = some (Z ++ children n S false Rs, O ++ children n S true Rs) := by
  induction Rs generalizing Z O with
  | nil => simp [waveletMatrix.splitRanges, children]
  | cons r rs ih =>
    have hr : r.valid S.length := hRs r (by simp)
    have hbp : r.Bpos ≤ S.length := Nat.le_trans hr.1 hr.2
    have hzb : (S.take r.Bpos).countP (sel n false) = down n S false r.Bpos := by simp [down]
    have hze : (S.take r.Epos).countP (sel n false) = down n S false r.Epos := by simp [down]
    have m0 := down_mono n S false hr.1
    have m1 := down_mono n S true hr.1
    have l0 := down_le n S false r.Epos
    have l1 := down_le n S true r.Epos
    unfold waveletMatrix.splitRanges
    simp only [rank_layer n S r.Bpos false hbp, rank_layer n S r.Epos false hr.2, zeroNum_layer,
      down_true_eq2 n S r.Bpos hbp hlen, down_true_eq2 n S r.Epos hr.2 hlen,
      Option.bind_eq_bind, Option.some_bind]
    rw [hzb, hze, sub64_eq m0 (by omega), sub64_eq m1 (by omega),
      ih (fun x hx => hRs x (by simp [hx]))]
    congr 1
    simp only [children, child, List.map_cons, List.filter_cons, gt_iff_lt, Nat.sub_pos_iff_lt,
      decide_eq_true_eq]
    by_cases h0 : down n S false r.Bpos < down n S false r.Epos <;>
      by_cases h1 : down n S true r.Bpos < down n S true r.Epos <;>
      simp [h0, h1]

theorem children_valid (n : Nat) (S : List Nat) (b : Bool) (Rs : List Range) :
    ∀ r ∈ children n S b Rs, r.valid (part n S).length ∧ r.Bpos < r.Epos := by
  intro r hr
  simp only [children, List.mem_filter, List.mem_map, decide_eq_true_eq] at hr
  obtain ⟨⟨r0, _, hr0⟩, hlt⟩ := hr
  refine ⟨⟨Nat.le_of_lt hlt, ?_⟩, hlt⟩
  rw [← hr0, length_part]
  exact down_le n S b r0.Epos

theorem hasVal_child (n : Nat) (S : List Nat) (b : Bool) (w : Nat) (hw : w < 2 ^ n)
    (r : Range) (hr : r.valid S.length) :
    (hasVal n (part n S) w (child n S b r) && decide ((child n S b r).Bpos < (child n S b r).Epos))
      = hasVal (n + 1) S ((if b then 2 ^ n else 0) + w) r := by
  have hsl := slice_part n S b r.Bpos r.Epos hr.1
  have hsub := down_sub n S b r.Bpos r.Epos hr.1
  have e1 : hasVal n (part n S) w (child n S b r)
      = hasVal (n + 1) S ((if b then 2 ^ n else 0) + w) r := by
    simp only [hasVal, child]
    rw [hsl, List.any_filter]
    congr 1
    funext y
    have hm := mod_succ_of_bit n y
    have hy : y % 2 ^ n < 2 ^ n := Nat.mod_lt _ (by positivity)
    rw [Bool.eq_iff_iff]
    cases hb : bitOf n y <;> cases b <;> simp [sel, hb] at hm ⊢ <;> omega
  rw [← e1]
  cases hv : hasVal n (part n S) w (child n S b r)
  · simp
  · simp only [Bool.true_and, decide_eq_true_eq, child]
    simp only [hasVal, child, hsl, List.any_eq_true, List.mem_filter] at hv
    obtain ⟨y, ⟨hy1, hy2⟩, _⟩ := hv
    have hpos : 0 < (slice S r.Bpos r.Epos).countP (sel n b) :=
      List.countP_pos_iff.2 ⟨y, hy1, hy2⟩
    omega

theorem cnt_children (n : Nat) (S : List Nat) (b : Bool) (w : Nat) (hw : w < 2 ^ n)
    (Rs : List Range) (hRs : ∀ r ∈ Rs, r.valid S.length) :
    cnt n (part n S) (children n S b Rs) w
      = cnt (n + 1) S Rs ((if b then 2 ^ n else 0) + w) := by
  unfold cnt children
  rw [List.countP_filter, List.countP_map]
  apply List.countP_congr
  intro r hr
  have := hasVal_child n S b w hw r (hRs r hr)
  simp only [Function.comp] at this ⊢
  rw [this]

theorem cnt_zero_eq_length (S : List Nat) (Z : List Range)
    (hZ : ∀ r ∈ Z, r.valid S.length ∧ r.Bpos < r.Epos) : cnt 0 S Z 0 = Z.length := by
  unfold cnt
  rw [List.countP_eq_length]
  intro r hr
  obtain ⟨⟨_, h2⟩, h3⟩ := hZ r hr
  have hl := slice_length S r.Bpos r.Epos h2
  simp only [hasVal, pow_zero, Nat.mod_one, beq_self_eq_true, List.any_eq_true, and_true]
  cases hs : slice S r.Bpos r.Epos with
  | nil => rw [hs] at hl; simp at hl; omega
  | cons y ys => exact ⟨y, by simp⟩

theorem intersectHelper_spec (wm : waveletMatrix) (k : Int) (rem : Nat) :
    ∀ (depth : Nat) (S : List Nat) (Rs : List Range) (pfx : Nat), LayersAt wm depth rem S →
      (∀ r ∈ Rs, r.valid S.length) → (pfx + 1) * 2 ^ rem ≤ two64 →
      ∃ res, wm.intersectHelper rem Rs k depth pfx = some res ∧ res.Sorted (· < ·) ∧
        (∀ x ∈ res, pfx * 2 ^ rem ≤ x ∧ x < (pfx + 1) * 2 ^ rem) ∧
        ((rem = 0 → k ≤ (cnt 0 S Rs 0 : Int)) →
          ∀ w, w < 2 ^ rem → (pfx * 2 ^ rem + w ∈ res ↔ k ≤ (cnt rem S Rs w : Int))) := by
  induction rem with
  | zero =>
    intro depth S Rs pfx h _ _
    have hd : depth = wm.blen := by have := h.depth_add; omega
    refine ⟨[pfx], ?_, by simp, by simp, ?_⟩
    · unfold waveletMatrix.intersectHelper
      rw [if_pos hd]
    · intro hk w hw
      have hw0 : w = 0 := by simpa using hw
      subst hw0
      simpa using hk rfl
  | succ n ih =>
    intro depth S Rs pfx h hRs hpfx
    have hlen := h.len_lt
    have hp : 0 < 2 ^ n := by positivity
    rw [Nat.pow_succ] at hpfx
    have hv2 : 2 * pfx < two64 := by nlinarith
    have side : ∀ b : Bool, ∃ resb,
        (if ((children n S b Rs).length : Int) ≥ k then
          wm.intersectHelper n (children n S b Rs) k (depth + 1)
            (2 * pfx + (if b then 1 else 0))
        else some []) = some resb ∧ resb.Sorted (· < ·) ∧
        (∀ x ∈ resb, pfx * 2 ^ (n + 1) + (if b then 2 ^ n else 0) ≤ x ∧
          x < pfx * 2 ^ (n + 1) + (if b then 2 ^ n else 0) + 2 ^ n) ∧
        (∀ w, w < 2 ^ n → (pfx * 2 ^ (n + 1) + (if b then 2 ^ n else 0) + w ∈ resb ↔
          k ≤ (cnt (n + 1) S Rs ((if b then 2 ^ n else 0) + w) : Int))) := by
      intro b
      have hcv := children_valid n S b Rs
      have hlo : (2 * pfx + (if b then 1 else 0)) * 2 ^ n
          = pfx * 2 ^ (n + 1) + (if b then 2 ^ n else 0) := by
        cases b <;> simp [Nat.pow_succ] <;> ring
      by_cases hk : ((children n S b Rs).length : Int) ≥ k
      · obtain ⟨res, hres, hs, hg, hm⟩ := ih (depth + 1) (part n S) (children n S b Rs)
          (2 * pfx + (if b then 1 else 0)) h.next (fun r hr => (hcv r hr).1)
          (by cases b <;> simp <;> nlinarith)
        refine ⟨res, by rw [if_pos hk]; exact hres, hs, ?_, ?_⟩
        · intro x hx
          have := hg x hx
          have e2 : ((2 * pfx + (if b then 1 else 0)) + 1) * 2 ^ n
              = (2 * pfx + (if b then 1 else 0)) * 2 ^ n + 2 ^ n := by ring
          rw [e2, hlo] at this
          omega
        · intro w hw
          have hm2 := hm (fun _ => by rw [cnt_zero_eq_length _ _ hcv]; exact hk) w hw
          rw [hlo, cnt_children n S b w hw Rs hRs] at hm2
          exact hm2
      · refine ⟨[], by rw [if_neg hk], by simp, by simp, ?_⟩
        intro w hw
        have hle : cnt n (part n S) (children n S b Rs) w ≤ (children n S b Rs).length :=
          List.countP_le_length _
        rw [cnt_children n S b w hw Rs hRs] at hle
        simp only [List.not_mem_nil, false_iff]
        omega
    obtain ⟨r0, e0, s0, g0, m0⟩ := side false
    obtain ⟨r1, e1, s1, g1, m1⟩ := side true
    simp only [Bool.false_eq_true, if_false, if_true, Nat.add_zero] at e0 e1 g0 g1 m0 m1
    refine ⟨r0 ++ r1, ?_, ?_, ?_, ?_⟩
    · unfold waveletMatrix.intersectHelper
      rw [if_neg h.ne_blen]
      simp only [h.layer, h.succ_depth, splitRanges_eq n S hlen Rs hRs, shl64_one hv2,
        two_mul_or_one, List.nil_append, Option.bind_eq_bind, Option.some_bind,
        Option.pure_def]
      by_cases c0 : ((children n S false Rs).length : Int) ≥ k <;>
        by_cases c1 : ((children n S true Rs).length : Int) ≥ k
      · rw [if_pos c0] at e0
        rw [if_pos c1] at e1
        simp [c0, c1, e0, e1]
      · rw [if_pos c0] at e0
        rw [if_neg c1] at e1
        have : r1 = [] := (Option.some.inj e1).symm
        simp [c0, c1, e0, this]
      · rw [if_neg c0] at e0
        rw [if_pos c1] at e1
        have : r0 = [] := (Option.some.inj e0).symm
        simp [c0, c1, e1, this]
      · rw [if_neg c0] at e0
        rw [if_neg c1] at e1
        have h0 : r0 = [] := (Option.some.inj e0).symm
        have h1 : r1 = [] := (Option.some.inj e1).symm
        simp [c0, c1, h0, h1]
    · refine List.pairwise_append.2 ⟨s0, s1, ?_⟩
      intro x hx y hy
      have := g0 x hx
      have := g1 y hy
      omega
    · intro x hx
      have e : (pfx + 1) * 2 ^ (n + 1) = pfx * 2 ^ (n + 1) + 2 ^ n + 2 ^ n := by
        rw [Nat.pow_succ]; ring
      rw [e]
      rcases List.mem_append.1 hx with hx | hx
      · have := g0 x hx
        omega
      · have := g1 x hx
        omega
    · intro _ w hw
      rw [Nat.pow_succ] at hw
      rw [List.mem_append]
      by_cases hwn : w < 2 ^ n
      · have hm := m0 w hwn
        rw [Nat.zero_add] at hm
        rw [← hm]
        constructor
        · rintro (hx | hx)
          · exact hx
          · have := g1 _ hx
            omega
        · exact Or.inl
      · have hm := m1 (w - 2 ^ n) (by omega)
        have e : pfx * 2 ^ (n + 1) + 2 ^ n + (w - 2 ^ n) = pfx * 2 ^ (n + 1) + w := by omega
        have e2 : 2 ^ n + (w - 2 ^ n) = w := by omega
        rw [e, e2] at hm
        rw [← hm]
        constructor
        · rintro (hx | hx)
          · have := g0 _ hx
            omega
          · exact hx
        · exact Or.inr

theorem Intersect_spec (T : List Nat) (hlen : T.length < two64) (ranges : List Range)
    (hR : ∀ r ∈ ranges, r.valid T.length) (k : Int) :
    ∃ res, (buildFrom T).Intersect ranges k = some res ∧ res.Sorted (· < ·) ∧
      (∀ x ∈ res, x < 2 ^ (buildFrom T).blen) ∧
      (((buildFrom T).blen = 0 → k ≤ (cnt 0 T ranges 0 : Int)) →
        ∀ w, w < 2 ^ (buildFrom T).blen →
          (w ∈ res ↔ k ≤ (cnt (buildFrom T).blen T ranges w : Int))) := by
  have h := layersAt_buildFrom T hlen
  have hpow : 2 ^ (buildFrom T).blen ≤ two64 := Nat.pow_le_pow_right (by decide) h.blen_le
  obtain ⟨res, hres, hs, hg, hm⟩ :=
    intersectHelper_spec (buildFrom T) k (buildFrom T).blen 0 T ranges 0 h hR
      (by simpa using hpow)
  refine ⟨res, hres, hs, ?_, ?_⟩
  · intro x hx
    simpa using (hg x hx).2
  · intro h0 w hw
    simpa using hm h0 w hw

theorem cnt_eq_occ (T : List Nat) (blen : Nat) (hT : ∀ x ∈ T, x % 2 ^ blen = x)
    (ranges : List Range) (v : Nat) : cnt blen T ranges v = occ T ranges v := by
  unfold cnt occ
  apply List.countP_congr
  intro r _
  simp only [hasVal, List.any_eq_true, beq_iff_eq, decide_eq_true_eq]
  constructor
  · rintro ⟨y, hy, hyv⟩
    rw [hT y (mem_of_mem_slice T _ _ y hy)] at hyv
    rw [← hyv]
    exact hy
  · intro hv
    exact ⟨v, hv, hT v (mem_of_mem_slice T _ _ v hv)⟩

theorem occ_pos_iff (T : List Nat) (ranges : List Range) (v : Nat) :
    0 < occ T ranges v ↔ ∃ r ∈ ranges, v ∈ slice T r.Bpos r.Epos := by
  unfold occ
  rw [List.countP_pos_iff]
  simp

theorem mem_origIntersect (T : List Nat) (ranges : List Range) (k : Int) (hk : 1 ≤ k)
    (v : Nat) : v ∈ origIntersect T ranges k ↔ k ≤ (occ T ranges v : Int) := by
  unfold origIntersect
  simp only []
  rw [(List.perm_insertionSort (· ≤ ·) _).mem_iff, List.mem_filter, List.mem_dedup,
    List.mem_flatten, List.countP_map]
  have hc : List.countP ((fun set => decide (v ∈ set)) ∘
      fun ranze => (slice T ranze.Bpos ranze.Epos).dedup) ranges = occ T ranges v := by
    unfold occ
    apply List.countP_congr
    intro r _
    simp
  rw [hc]
  simp only [ge_iff_le, decide_eq_true_eq, List.mem_map]
  constructor
  · exact fun h => h.2
  · intro h
    refine ⟨?_, h⟩
    have hpos : 0 < occ T ranges v := by omega
    obtain ⟨r, hr, hv⟩ := (occ_pos_iff T ranges v).1 hpos
    exact ⟨_, ⟨r, hr, rfl⟩, List.mem_dedup.2 hv⟩

theorem origIntersect_sorted (T : List Nat) (ranges : List Range) (k : Int) :
    (origIntersect T ranges k).Sorted (· ≤ ·) ∧ (origIntersect T ranges k).Nodup := by
  unfold origIntersect
  simp only []
  refine ⟨List.sorted_insertionSort (· ≤ ·) _, ?_⟩
  rw [(List.perm_insertionSort (· ≤ ·) _).nodup_iff]
  exact (List.nodup_dedup _).filter _

theorem blen_pos (T : List Nat) (hT : ∀ x ∈ T, x < two64 - 1) (hne : T ≠ []) :
    (buildFrom T).blen ≠ 0 := by
  obtain ⟨y, hy⟩ := List.exists_mem_of_ne_nil T hne
  have h1 := getDim_gt T hT y hy
  rw [buildFrom_eq]
  simp only []
  rw [getBinaryLen_eq _ (getDim_lt T)]
  have := (Nat.size_pos (n := getDim T)).2 (by omega)
  omega

/-- C6: on the matrix built from any sequence `T`, for every list of ranges with
`Bpos ≤ Epos ≤ n` and every integer `k` (also `k ≤ 0`), `Intersect(ranges, k)`
returns a list in strictly ascending order, hence without duplicates. -/
theorem Intersect_sorted (T : List Nat) (hlen : T.length < 2 ^ 64) (ranges : List Range)
    (hR : ∀ r ∈ ranges, r.valid T.length) (k : Int) :
    ∃ res, (buildFrom T).Intersect ranges k = some res ∧ res.Sorted (· < ·) ∧ res.Nodup := by
  obtain ⟨res, hres, hs, _, _⟩ := Intersect_spec T hlen ranges hR k
  exact ⟨res, hres, hs, hs.nodup⟩

/-- Witness of `Intersect_sorted` on `[5, 2, 5, 1, 5, 2, 3, 0, 1, 4]` with the
ranges `[0,4)`, `[4,8)`, `[6,10)` and `k = 0`. -/
theorem Intersect_sorted_witness :
    ∃ res, (buildFrom [5, 2, 5, 1, 5, 2, 3, 0, 1, 4]).Intersect
        [⟨0, 4⟩, ⟨4, 8⟩, ⟨6, 10⟩] 0 = some res ∧ res.Sorted (· < ·) ∧ res.Nodup :=
  Intersect_sorted [5, 2, 5, 1, 5, 2, 3, 0, 1, 4] (by decide) [⟨0, 4⟩, ⟨4, 8⟩, ⟨6, 10⟩]
    (by decide) 0

/-- C5: on the matrix built from a non-empty `T` (values below `2^64 - 1`), for
every list of ranges with `Bpos ≤ Epos ≤ n` and every `k ≥ 1`, the values
returned by `Intersect(ranges, k)` are exactly the values that occur in at least
`k` entries of the list (an entry counts once), and the result equals the test
oracle `origIntersect(T, ranges, k)`. -/
theorem Intersect_buildFrom (T : List Nat) (hne : T ≠ []) (hT : ∀ x ∈ T, x < 2 ^ 64 - 1)
    (hlen : T.length < 2 ^ 64) (ranges : List Range) (hR : ∀ r ∈ ranges, r.valid T.length)
    (k : Int) (hk : 1 ≤ k) :
    ∃ res, (buildFrom T).Intersect ranges k = some res ∧
      (∀ v, v ∈ res ↔ k ≤ (occ T ranges v : Int)) ∧ res = origIntersect T ranges k := by
  obtain ⟨res, hres, hs, hg, hm⟩ := Intersect_spec T hlen ranges hR k
  have hmod := buildFrom_mod T hT
  have hmem : ∀ v, v ∈ res ↔ k ≤ (occ T ranges v : Int) := by
    intro v
    by_cases hv : v < 2 ^ (buildFrom T).blen
    · rw [hm (fun h0 => absurd h0 (blen_pos T hT hne)) v hv, cnt_eq_occ T _ hmod]
    · constructor
      · intro hx
        exact absurd (hg v hx) hv
      · intro hocc
        have hpos : 0 < occ T ranges v := by omega
        obtain ⟨r, _, hvr⟩ := (occ_pos_iff T ranges v).1 hpos
        have := hmod v (mem_of_mem_slice T _ _ v hvr)
        have hlt : v % 2 ^ (buildFrom T).blen < 2 ^ (buildFrom T).blen :=
          Nat.mod_lt _ (by positivity)
        rw [this] at hlt
        exact absurd hlt hv
  refine ⟨res, hres, hmem, ?_⟩
  have ho := origIntersect_sorted T ranges k
  apply List.eq_of_perm_of_sorted _ (hs.imp (fun h => Nat.le_of_lt h)) ho.1
  rw [List.perm_ext_iff_of_nodup hs.nodup ho.2]
  intro v
  rw [hmem v, mem_origIntersect T ranges k hk v]

/-- Witness of `Intersect_buildFrom` on `[5, 2, 5, 1, 5, 2, 3, 0, 1, 4]` with the
ranges `[0,4)`, `[4,8)`, `[6,10)` and `k = 2`. -/
theorem Intersect_buildFrom_witness :
    ∃ res, (buildFrom [5, 2, 5, 1, 5, 2, 3, 0, 1, 4]).Intersect
        [⟨0, 4⟩, ⟨4, 8⟩, ⟨6, 10⟩] 2 = some res ∧
      (∀ v, v ∈ res ↔ (2 : Int) ≤ (occ [5, 2, 5, 1, 5, 2, 3, 0, 1, 4]
        [⟨0, 4⟩, ⟨4, 8⟩, ⟨6, 10⟩] v : Int)) ∧
      res = origIntersect [5, 2, 5, 1, 5, 2, 3, 0, 1, 4] [⟨0, 4⟩, ⟨4, 8⟩, ⟨6, 10⟩] 2 :=
  Intersect_buildFrom [5, 2, 5, 1, 5, 2, 3, 0, 1, 4] (by decide) (by decide) (by decide)
    [⟨0, 4⟩, ⟨4, 8⟩, ⟨6, 10⟩] (by decide) 2 (by decide)

/-! ## The empty matrix -/

theorem Build_NewBuilder : NewBuilder.Build = ⟨[], 0, 0, 0⟩ := by decide

/-- C11: the matrix built from a builder into which no value was pushed has
`Num() = 0`, `Dim() = 0`, no layer (`blen = 0`), and `Rank(0, 0) = 0`. -/
theorem NewBuilder_Build_empty :
    NewBuilder.Build.Num = 0 ∧ NewBuilder.Build.Dim = 0 ∧
      NewBuilder.Build.layers.length = 0 ∧ NewBuilder.Build.blen = 0 ∧
      NewBuilder.Build.Rank 0 0 = some 0 := by
  decide

/-- C12 fails as stated: on the matrix built from the empty sequence
`Lookup(0)`, `Select(0, 0)` and `Quantile(Range{0, 0}, 0)` each return the
number 0 instead of failing. -/
theorem empty_matrix_returns :
    NewBuilder.Build.Lookup 0 = some 0 ∧ NewBuilder.Build.Select 0 0 = some 0 ∧
      NewBuilder.Build.Quantile ⟨0, 0⟩ 0 = some 0 := by
  decide

/-- C12, as amended: on the matrix built from the empty sequence no query
reports out-of-range; for all arguments `Lookup(i)` returns 0, `Select(r, v)`
returns `r` and `Quantile(range, k)` returns 0. -/
theorem empty_matrix_queries (i r v k : Nat) (ranze : Range) (hr : r < 2 ^ 64) :
    NewBuilder.Build.Lookup i = some 0 ∧ NewBuilder.Build.Select r v = some r ∧
      NewBuilder.Build.Quantile ranze k = some 0 := by
  rw [Build_NewBuilder]
  refine ⟨rfl, ?_, rfl⟩
  unfold waveletMatrix.Select waveletMatrix.selectHelper
  have h : add64 0 r = r := by
    rw [add64_eq (by rw [Nat.zero_add]; exact hr), Nat.zero_add]
  simp [h]

/-- Witness of `empty_matrix_queries` at `i = 3`, `r = 7`, `v = 2`, `k = 1` and
the range `[0, 0)`. -/
theorem empty_matrix_queries_witness :
    NewBuilder.Build.Lookup 3 = some 0 ∧ NewBuilder.Build.Select 7 2 = some 7 ∧
      NewBuilder.Build.Quantile ⟨0, 0⟩ 1 = some 0 :=
  empty_matrix_queries 3 7 2 1 ⟨0, 0⟩ (by decide)

/-- C17 fails on the code: on the matrix built from the empty sequence
`Intersect(ranges, k)` returns the one-element list `[0]` for every list of
ranges and every `k`, while no value occurs in any range and the test oracle
returns the empty list. -/
theorem Intersect_empty_matrix (ranges : List Range) (k : Int) :
    NewBuilder.Build.Intersect ranges k = some [0] ∧ origIntersect [] [] 1 = [] := by
  rw [Build_NewBuilder]
  refine ⟨?_, by decide⟩
  unfold waveletMatrix.Intersect waveletMatrix.intersectHelper
  simp

/-! ## Values outside `[0, sigma)` -/

/-- C18 fails on the code: for the one-element sequence holding `2^64 - 1`,
`getDim` wraps to 0, `getBinaryLen` yields 0 layers, the element is not below
`2^0`, and `Lookup(0)` returns 0. -/
theorem getDim_wraps :
    getDim [18446744073709551615] = 0 ∧
      getBinaryLen (getDim [18446744073709551615]) = 0 ∧
      ¬ (18446744073709551615 < 2 ^ getBinaryLen (getDim [18446744073709551615])) ∧
      (buildFrom [18446744073709551615]).Lookup 0 = some 0 := by
  decide

/-- C13 fails on the code: on the matrix built from `[1]`, with `sigma = 2`, the
value 5 is not reported. `Rank(1, 5)` returns 1, the count of the value 1, while
`T[0..1)` holds no 5; `RankRange` returns the range of the value 1 and
`Select(0, 5)` the position of the value 1. -/
theorem value_not_reported :
    (buildFrom [1]).Dim = 2 ∧ (buildFrom [1]).Rank 1 5 = some 1 ∧
      ([1].take 1).count 5 = 0 ∧
      (buildFrom [1]).RankRange ⟨0, 1⟩ 5 = some ⟨0, 1⟩ ∧
      (buildFrom [1]).Select 0 5 = some 0 := by
  decide

theorem countP_mod_eq_count (T L : List Nat) (blen v : Nat)
    (hT : ∀ x ∈ T, x % 2 ^ blen = x) (hL : ∀ x ∈ L, x ∈ T) :
    L.countP (fun y => y % 2 ^ blen == v % 2 ^ blen) = L.count (v % 2 ^ blen) := by
  rw [List.count_eq_countP]
  apply List.countP_congr
  intro y hy
  rw [hT y (hL y hy)]

/-! ## The layers and the sequences they hold -/

theorem layersAt_seqAt (T : List Nat) (hlen : T.length < two64) (d : Nat)
    (hd : d ≤ (buildFrom T).blen) :
    LayersAt (buildFrom T) d ((buildFrom T).blen - d) (seqAt (buildFrom T).blen T d) := by
  induction d with
  | zero => exact layersAt_buildFrom T hlen
  | succ n ih =>
    have h := ih (by omega)
    have e : (buildFrom T).blen - n = ((buildFrom T).blen - (n + 1)) + 1 := by omega
    rw [e] at h
    have h2 := h.next
    have e2 : (buildFrom T).blen - (n + 1) = (buildFrom T).blen - n - 1 := by omega
    rw [e2] at h2 ⊢
    exact h2

theorem length_seqAt (blen : Nat) (T : List Nat) (d : Nat) :
    (seqAt blen T d).length = T.length := by
  induction d with
  | zero => rfl
  | succ n ih => rw [seqAt, length_part, ih]

/-- C16: with `S_0 = T` and `S_(d+1)` the stable partition of `S_d` on bit
`depth-d-1` (`seqAt`), on the matrix built from any sequence `T` every layer `d < depth` has exactly `n` bits; for every `i < n` its bit `i` is
bit `depth-d-1` of `S_d[i]`, and `S_d[i]` is found in `S_(d+1)` at position
`L[d].rank(i, 0)` when that bit is 0 and at `L[d].zero_num() + L[d].rank(i, 1)`
when it is 1. -/
theorem layers_buildFrom (T : List Nat) (hlen : T.length < 2 ^ 64) (d : Nat)
    (hd : d < (buildFrom T).blen) :
    ∃ rsd, (buildFrom T).layers[d]? = some rsd ∧ rsd.Num = T.length ∧
      ∀ i, i < T.length →
        ∃ x p, (seqAt (buildFrom T).blen T d)[i]? = some x ∧
          rsd.Bit i = some (bitOf ((buildFrom T).blen - d - 1) x) ∧
          rsd.Rank i (bitOf ((buildFrom T).blen - d - 1) x) = some p ∧
          (bitOf ((buildFrom T).blen - d - 1) x = false →
            (seqAt (buildFrom T).blen T (d + 1))[p]? = some x) ∧
          (bitOf ((buildFrom T).blen - d - 1) x = true →
            (seqAt (buildFrom T).blen T (d + 1))[rsd.ZeroNum + p]? = some x) := by
  have h := layersAt_seqAt T hlen d (Nat.le_of_lt hd)
  have e : (buildFrom T).blen - d = ((buildFrom T).blen - d - 1) + 1 := by omega
  rw [e] at h
  have hl := length_seqAt (buildFrom T).blen T d
  refine ⟨_, h.layer, by simp [RSDic.Num, hl], ?_⟩
  intro i hi
  have hi2 : i < (seqAt (buildFrom T).blen T d).length := by rw [hl]; exact hi
  have hx : (seqAt (buildFrom T).blen T d)[i]? = some (seqAt (buildFrom T).blen T d)[i] :=
    List.getElem?_eq_getElem hi2
  have hd2 := (down_getElem? ((buildFrom T).blen - d - 1) _ i _ hx).1
  refine ⟨_, _, hx, by rw [bit_layer, hx]; rfl, rank_layer _ _ i _ (Nat.le_of_lt hi2), ?_, ?_⟩
  · intro hb
    rw [hb] at hd2
    simpa [seqAt, down, hb] using hd2
  · intro hb
    rw [hb] at hd2
    rw [zeroNum_layer]
    simpa [seqAt, down, hb] using hd2

/-- Witness of `layers_buildFrom` on the sequence `[5, 2, 5, 1]` at layer 1. -/
theorem layers_buildFrom_witness :
    ∃ rsd, (buildFrom [5, 2, 5, 1]).layers[1]? = some rsd ∧
      rsd.Num = [5, 2, 5, 1].length :=
  let ⟨rsd, h1, h2, _⟩ := layers_buildFrom [5, 2, 5, 1] (by decide) 1 (by decide)
  ⟨rsd, h1, h2⟩

/-! ## Serialisation round trip -/

theorem marshalLayers_spec (c : Codec) (hc : c.rsd.RoundTrip (fun _ => True))
    (layers : List RSDic) (out : List Nat) :
    ∃ bs, marshalLayers c layers out = some (out ++ bs) ∧
      ∀ rest, unmarshalLayers c layers.length (bs ++ rest) = some (layers, rest) := by
  induction layers generalizing out with
  | nil => exact ⟨[], by simp [marshalLayers], fun rest => by simp [unmarshalLayers]⟩
  | cons r rs ih =>
    obtain ⟨b1, he1, hd1⟩ := hc r trivial
    obtain ⟨b2, he2, hd2⟩ := ih (out ++ b1)
    refine ⟨b1 ++ b2, ?_, ?_⟩
    · simp [marshalLayers, he1, he2, List.append_assoc]
    · intro rest
      simp [unmarshalLayers, List.append_assoc, hd1, hd2]

theorem roundTrip_of_bounds (c : Codec) (hc : c.Lawful) (wm : waveletMatrix)
    (h1 : wm.layers.length < 2 ^ 63) (h2 : wm.dim < 2 ^ 64) (h3 : wm.num < 2 ^ 64)
    (h4 : wm.blen < 2 ^ 64) :
    ∃ out, wm.MarshalBinary c = some out ∧
      ∀ wm0 : waveletMatrix, wm0.UnmarshalBinary c out = some wm := by
  obtain ⟨bn, hen, hdn⟩ := hc.int wm.layers.length h1
  obtain ⟨bl, hel, hdl⟩ := marshalLayers_spec c hc.rsd wm.layers bn
  obtain ⟨bd, hed, hdd⟩ := hc.uint64 wm.dim h2
  obtain ⟨bm, hem, hdm⟩ := hc.uint64 wm.num h3
  obtain ⟨bb, heb, hdb⟩ := hc.uint64 wm.blen h4
  refine ⟨bn ++ bl ++ bd ++ bm ++ bb, ?_, ?_⟩
  · simp [waveletMatrix.MarshalBinary, hen, hel, hed, hem, heb]
  · intro wm0
    have e : bn ++ bl ++ bd ++ bm ++ bb = bn ++ (bl ++ (bd ++ (bm ++ bb))) := by simp
    have hdb0 : c.uint64.dec bb = some (wm.blen, []) := by simpa using hdb []
    simp [waveletMatrix.UnmarshalBinary, e, hdn, hdl, hdd, hdm, hdb0]

theorem unaryDec_spec (n : Nat) (rest : List Nat) :
    unaryDec (List.replicate n 1 ++ [0] ++ rest) = some (n, rest) := by
  induction n with
  | zero => simp [unaryDec]
  | succ k ih =>
    rw [List.replicate_succ, List.cons_append, List.cons_append]
    unfold unaryDec
    rw [ih]
    rfl

theorem sampleCodec_lawful : sampleCodec.Lawful := by
  refine ⟨?_, ?_, ?_⟩
  · intro x _
    exact ⟨_, rfl, fun rest => unaryDec_spec x rest⟩
  · intro x _
    refine ⟨_, rfl, ?_⟩
    intro rest
    show (unaryDec _).bind _ = _
    rw [List.append_assoc, unaryDec_spec]
    have hl : x.bits.length ≤ (x.bits.map (fun b : Bool => if b then 1 else 0) ++ rest).length := by
      simp
    have ht : (x.bits.map (fun b : Bool => if b then 1 else 0) ++ rest).take x.bits.length
        = x.bits.map (fun b : Bool => if b then 1 else 0) := List.take_left' (by simp)
    have hd : (x.bits.map (fun b : Bool => if b then 1 else 0) ++ rest).drop x.bits.length
        = rest := List.drop_left' (by simp)
    simp only [Option.some_bind, if_pos hl, ht, hd]
    have hm : (x.bits.map (fun b : Bool => if b then 1 else 0)).map (fun y : Nat => decide (y = 1))
        = x.bits := by
      rw [List.map_map]
      conv_rhs => rw [← List.map_id x.bits]
      apply List.map_congr_left
      intro b _
      cases b <;> simp
    rw [hm]
  · intro x _
    exact ⟨_, rfl, fun rest => unaryDec_spec x rest⟩

/-- C15: for a codec whose decoders read back what its encoders wrote, and for
every matrix `M` produced by `Build`, `MarshalBinary` succeeds and
`UnmarshalBinary` applied to a fresh `New()` matrix with its bytes succeeds and
yields a matrix with the same `Num`, `Dim`, depth and layers, on which `Lookup`,
`Rank`, `RankRange`, `Select`, `LookupAndRank`, `Quantile` and `Intersect`
return the same results as on `M` for every argument. -/
theorem Unmarshal_Marshal (c : Codec) (hc : c.Lawful) (T : List Nat) :
    ∃ out wm, (buildFrom T).MarshalBinary c = some out ∧
      New.UnmarshalBinary c out = some wm ∧
      wm.Num = (buildFrom T).Num ∧ wm.Dim = (buildFrom T).Dim ∧
      wm.blen = (buildFrom T).blen ∧ wm.layers = (buildFrom T).layers ∧
      (∀ i, wm.Lookup i = (buildFrom T).Lookup i) ∧
      (∀ i v, wm.Rank i v = (buildFrom T).Rank i v) ∧
      (∀ ranze v, wm.RankRange ranze v = (buildFrom T).RankRange ranze v) ∧
      (∀ r v, wm.Select r v = (buildFrom T).Select r v) ∧
      (∀ i, wm.LookupAndRank i = (buildFrom T).LookupAndRank i) ∧
      (∀ ranze k, wm.Quantile ranze k = (buildFrom T).Quantile ranze k) ∧
      (∀ ranges k, wm.Intersect ranges k = (buildFrom T).Intersect ranges k) := by
  have hb : (buildFrom T).blen ≤ 64 := by
    rw [buildFrom_eq]
    exact getBinaryLen_le _ (getDim_lt T)
  have hd : (buildFrom T).dim < 2 ^ 64 := by
    rw [buildFrom_eq]
    exact getDim_lt T
  have hn : (buildFrom T).num < 2 ^ 64 := by
    rw [buildFrom_eq]
    exact Nat.mod_lt _ (by decide)
  obtain ⟨out, ho, hu⟩ := roundTrip_of_bounds c hc (buildFrom T)
    (by rw [buildFrom_layers_length]; omega) hd hn (by omega)
  exact ⟨out, buildFrom T, ho, hu New, rfl, rfl, rfl, rfl, fun _ => rfl, fun _ _ => rfl,
    fun _ _ => rfl, fun _ _ => rfl, fun _ => rfl, fun _ _ => rfl, fun _ _ => rfl⟩

/-- Witness of `Unmarshal_Marshal` for the sample codec and the sequence
`[5, 2, 5, 1]`. -/
theorem Unmarshal_Marshal_witness :
    ∃ out wm, (buildFrom [5, 2, 5, 1]).MarshalBinary sampleCodec = some out ∧
      New.UnmarshalBinary sampleCodec out = some wm ∧ wm.layers = (buildFrom [5, 2, 5, 1]).layers :=
  let ⟨out, wm, h1, h2, _, _, _, h3, _⟩ :=
    Unmarshal_Marshal sampleCodec sampleCodec_lawful [5, 2, 5, 1]
  ⟨out, wm, h1, h2, h3⟩

/-! ## The steps of Select -/

theorem oneNum_layer (r : Nat) (S : List Nat) :
    (RSDic.mk (S.map (bitOf r))).OneNum = (S.filter (sel r true)).length := by
  unfold RSDic.OneNum
  rw [List.count_eq_countP, List.countP_map, List.countP_eq_length_filter]
  rfl

theorem selectPos_step {wm : waveletMatrix} {depth n : Nat} {S : List Nat}
    (h : LayersAt wm depth (n + 1) S) (val k pos : Nat) (hpos : pos ≤ S.length) :
    selectPos wm val (k + 1) depth pos
      = selectPos wm val k (depth + 1) (down n S (bitOf n val) pos) := by
  have hlen := h.len_lt
  rw [selectPos]
  simp only [h.layer, h.msb, h.succ_depth, rank_layer n S pos _ hpos, zeroNum_layer,
    Option.bind_eq_bind, Option.some_bind]
  cases hb : bitOf n val
  · simp [down]
  · have e1 := down_le n S true pos
    simp only [down, if_true] at e1
    simp only [Bool.not_true, Bool.false_eq_true, if_false, down, if_true]
    rw [add64_eq (by omega), Nat.add_comm (List.countP _ _)]

theorem selectPos_spec (wm : waveletMatrix) (val : Nat) (rem : Nat) :
    ∀ (depth : Nat) (S : List Nat) (pos : Nat), LayersAt wm depth rem S → pos ≤ S.length →
      ∃ p, selectPos wm val rem depth pos = some p := by
  induction rem with
  | zero => intro depth S pos _ _; exact ⟨pos, rfl⟩
  | succ n ih =>
    intro depth S pos h hpos
    rw [selectPos_step h val n pos hpos]
    exact ih (depth + 1) (part n S) _ h.next (by rw [length_part]; exact down_le n S _ pos)

theorem select_in_range (wm : waveletMatrix) (rem : Nat) :
    ∀ (depth : Nat) (S : List Nat) (pos j r val x : Nat), LayersAt wm depth rem S →
      pos ≤ j → S[j]? = some x → x % 2 ^ rem = val % 2 ^ rem →
      (slice S pos j).countP (fun y => y % 2 ^ rem == val % 2 ^ rem) = r →
      ∀ k, k < rem → ∃ rsd p q, wm.layers[depth + k]? = some rsd ∧
        selectPos wm val (k + 1) depth pos = some p ∧
        wm.selectHelper (rem - (k + 1)) r val p (depth + k + 1) = some q ∧
        (getMSB val (depth + k) wm.blen = false →
          q < rsd.ZeroNum ∧ ∃ i, rsd.Select q false = some i) ∧
        (getMSB val (depth + k) wm.blen = true →
          rsd.ZeroNum ≤ q ∧ q - rsd.ZeroNum < rsd.OneNum ∧
            ∃ i, rsd.Select (sub64 q rsd.ZeroNum) true = some i) := by
  induction rem with
  | zero => intro _ _ _ _ _ _ _ _ _ _ _ _ k hk; omega
  | succ n ih =>
    intro depth S pos j r val x h hle hx hmod hr k hk
    have hj : j < S.length := by
      rcases Nat.lt_or_ge j S.length with h1 | h1
      · exact h1
      · rw [List.getElem?_eq_none h1] at hx; cases hx
    have hlen := h.len_lt
    have hbit : bitOf n x = bitOf n val := ((mod_succ_eq_iff n x val).1 hmod).1
    have hmod2 : x % 2 ^ n = val % 2 ^ n := ((mod_succ_eq_iff n x val).1 hmod).2
    have hd := down_getElem? n S j x hx
    rw [hbit] at hd
    have hcnt : (slice (part n S) (down n S (bitOf n val) pos)
        (down n S (bitOf n val) j)).countP (fun y => y % 2 ^ n == val % 2 ^ n) = r := by
      rw [slice_part n S _ pos j hle, countP_mod_succ, hr]
    cases k with
    | zero =>
      have hrec := selectHelper_spec wm n (depth + 1) (part n S) (down n S (bitOf n val) pos)
        (down n S (bitOf n val) j) r val x h.next (down_mono n S _ hle) hd.1 hmod2 hcnt
      have hsel := select_layer n S j x (bitOf n val) hx hbit
      have hle1 := down_le n S (bitOf n val) (j + 1)
      have hsum := filter_length_add n S
      refine ⟨_, down n S (bitOf n val) pos, down n S (bitOf n val) j, h.layer, ?_, ?_, ?_, ?_⟩
      · rw [selectPos_step h val 0 pos (by omega)]
        rfl
      · simpa using hrec
      · intro hb
        rw [Nat.add_zero, h.msb] at hb
        rw [hb] at hsel hd hle1
        rw [hb, zeroNum_layer]
        simp only [down, Bool.false_eq_true, if_false, Nat.zero_add] at hd hle1 ⊢
        have hc := countP_take_le (sel n false) S (j + 1)
        rw [List.countP_eq_length_filter (sel n false) S] at hc
        exact ⟨by omega, j, hsel⟩
      · intro hb
        rw [Nat.add_zero, h.msb] at hb
        rw [hb] at hsel hd hle1
        rw [hb, zeroNum_layer, oneNum_layer]
        simp only [down, if_true] at hd hle1 ⊢
        refine ⟨by omega, by omega, j, ?_⟩
        rw [sub64_eq (by omega) (by omega), Nat.add_sub_cancel_left]
        exact hsel
    | succ k2 =>
      obtain ⟨rsd, p, q, h1, h2, h3, h4, h5⟩ := ih (depth + 1) (part n S)
        (down n S (bitOf n val) pos) (down n S (bitOf n val) j) r val x h.next
        (down_mono n S _ hle) hd.1 hmod2 hcnt k2 (by omega)
      have e1 : depth + (k2 + 1) = depth + 1 + k2 := by omega
      have e2 : n + 1 - (k2 + 1 + 1) = n - (k2 + 1) := by omega
      refine ⟨rsd, p, q, ?_, ?_, ?_, ?_, ?_⟩
      · rw [e1]; exact h1
      · rw [selectPos_step h val (k2 + 1) pos (by omega)]; exact h2
      · rw [e1, e2]; exact h3
      · rw [e1]; exact h4
      · rw [e1]; exact h5

/-- C19: on the matrix built from `T` (values below `2^64 - 1`), for a value `v`
and `r` smaller than the number of occurrences of `v`, `Select(r, v)` returns a
position and every step is in range: at each layer `d`, the rank `q` handed
back by the deeper call of `selectHelper` satisfies `q < zero_num(L[d])` when
the bit of `v` is 0, and `zero_num(L[d]) ≤ q` with
`q - zero_num(L[d]) < one_num(L[d])` when it is 1, and the layer's select
called with it returns. -/
theorem Select_steps_in_range (T : List Nat) (hT : ∀ x ∈ T, x < 2 ^ 64 - 1)
    (hlen : T.length < 2 ^ 64) (v r : Nat) (hr : r < T.count v) :
    (∃ j, (buildFrom T).Select r v = some j) ∧
    ∀ d, d < (buildFrom T).blen → ∃ rsd p q, (buildFrom T).layers[d]? = some rsd ∧
      selectPos (buildFrom T) v (d + 1) 0 0 = some p ∧
      (buildFrom T).selectHelper ((buildFrom T).blen - (d + 1)) r v p (d + 1) = some q ∧
      (getMSB v d (buildFrom T).blen = false →
        q < rsd.ZeroNum ∧ ∃ i, rsd.Select q false = some i) ∧
      (getMSB v d (buildFrom T).blen = true →
        rsd.ZeroNum ≤ q ∧ q - rsd.ZeroNum < rsd.OneNum ∧
          ∃ i, rsd.Select (sub64 q rsd.ZeroNum) true = some i) := by
  obtain ⟨j, hj1, hj2⟩ := exists_occurrence T v r hr
  have hmod := buildFrom_mod T hT
  have hc : (slice T 0 j).countP (fun y => y % 2 ^ (buildFrom T).blen ==
      v % 2 ^ (buildFrom T).blen) = r := by
    rw [slice_zero, countP_mod_eq_count T _ _ v hmod (fun x hx => List.mem_of_mem_take hx),
      hmod v (List.getElem?_mem hj1), hj2]
  constructor
  · refine ⟨j, ?_⟩
    rw [← hj2]
    exact Select_of_occurrence T hT hlen j v hj1
  · intro d hd
    have := select_in_range (buildFrom T) (buildFrom T).blen 0 T 0 j r v v
      (layersAt_buildFrom T hlen) (Nat.zero_le j) hj1 rfl hc d hd
    simpa using this

/-- Witness of `Select_steps_in_range` on `[5, 2, 5, 1, 5]`, value 5 and rank 1. -/
theorem Select_steps_in_range_witness :
    ∃ j, (buildFrom [5, 2, 5, 1, 5]).Select 1 5 = some j :=
  (Select_steps_in_range [5, 2, 5, 1, 5] (by decide) (by decide) 5 1 (by decide)).1

/-! ## Select beyond the last occurrence -/

theorem RSDic.select_some (rs : RSDic) (t q : Nat) (b : Bool) (h : rs.Select t b = some q) :
    q < rs.bits.length ∧ rs.bits[q]? = some b ∧ (rs.bits.take q).count b = t := by
  unfold RSDic.Select at h
  split at h
  · rw [List.find?_range_eq_some] at h
    obtain ⟨hp, hq, hmin⟩ := h
    have hq2 : q < rs.bits.length := List.mem_range.1 hq
    have hp2 : (rs.bits.take (q + 1)).count b = t + 1 := by simpa using hp
    rw [List.take_succ, List.getElem?_eq_getElem hq2] at hp2
    simp only [Option.toList, List.count_append, List.count_cons, List.count_nil,
      Nat.zero_add] at hp2
    by_cases hy : rs.bits[q] = b
    · refine ⟨hq2, by rw [List.getElem?_eq_getElem hq2, hy], ?_⟩
      simp only [hy, beq_self_eq_true, if_true] at hp2
      omega
    · exfalso
      have hne : (rs.bits[q] == b) = false := by simpa using hy
      simp only [hne, Bool.false_eq_true, if_false, Nat.add_zero] at hp2
      rcases Nat.eq_zero_or_pos q with h0 | h0
      · rw [h0] at hp2
        simp at hp2
      · have hm := hmin (q - 1) (by omega)
        have e : q - 1 + 1 = q := by omega
        rw [e, hp2] at hm
        simp at hm
  · cases h

theorem select_layer_some (n : Nat) (S : List Nat) (t q : Nat) (b : Bool)
    (h : (RSDic.mk (S.map (bitOf n))).Select t b = some q) :
    q < S.length ∧ (∃ y, S[q]? = some y ∧ bitOf n y = b) ∧
      (S.take q).countP (sel n b) = t := by
  obtain ⟨h1, h2, h3⟩ := RSDic.select_some _ t q b h
  have hq : q < S.length := by simpa using h1
  refine ⟨hq, ⟨S[q], List.getElem?_eq_getElem hq, ?_⟩, ?_⟩
  · simpa [List.getElem?_map, List.getElem?_eq_getElem hq] using h2
  · rw [← h3]
    show _ = ((S.map (bitOf n)).take q).count b
    rw [← List.map_take, List.count_eq_countP, List.countP_map]
    rfl

theorem selectHelper_out (wm : waveletMatrix) (rem : Nat) :
    ∀ (depth : Nat) (S : List Nat) (pos e r val : Nat), LayersAt wm depth rem S →
      pos ≤ e → e ≤ S.length → r < two64 →
      (slice S pos e).countP (fun y => y % 2 ^ rem == val % 2 ^ rem) ≤ r →
      ∀ q, wm.selectHelper rem r val pos depth = some q →
        q < two64 ∧ (rem ≠ 0 → q < S.length) ∧ ¬ (pos ≤ q ∧ q < e) := by
  induction rem with
  | zero =>
    intro depth S pos e r val h hle hep hr hcnt q hq
    have hd : depth = wm.blen := by have := h.depth_add; omega
    have hc : e - pos ≤ r := by
      simpa [Nat.mod_one, slice_length S pos e hep] using hcnt
    unfold waveletMatrix.selectHelper at hq
    rw [if_pos hd] at hq
    have hq2 : add64 pos r = q := Option.some.inj hq
    unfold add64 at hq2
    rw [two64_eq] at *
    refine ⟨by omega, fun h0 => absurd rfl h0, by omega⟩
  | succ n ih =>
    intro depth S pos e r val h hle hep hr hcnt q hq
    have hlen := h.len_lt
    have hcnt2 : (slice (part n S) (down n S (bitOf n val) pos)
        (down n S (bitOf n val) e)).countP (fun y => y % 2 ^ n == val % 2 ^ n) ≤ r := by
      rw [slice_part n S _ pos e hle, countP_mod_succ]; exact hcnt
    have hih := ih (depth + 1) (part n S) (down n S (bitOf n val) pos)
      (down n S (bitOf n val) e) r val h.next (down_mono n S _ hle)
      (by rw [length_part]; exact down_le n S _ e) hr hcnt2
    unfold waveletMatrix.selectHelper at hq
    rw [if_neg h.ne_blen] at hq
    simp only [h.layer, h.msb, h.succ_depth, rank_layer n S pos _ (by omega), zeroNum_layer,
      Option.bind_eq_bind, Option.some_bind] at hq
    cases hb : bitOf n val
    · rw [hb] at hq hih
      have e0 : (S.take pos).countP (sel n false) = down n S false pos := by simp [down]
      simp only [Bool.not_false, if_true] at hq
      rw [e0] at hq
      obtain ⟨q1, hq1, hs⟩ := Option.bind_eq_some.1 hq
      obtain ⟨_, hno⟩ := hih q1 hq1
      obtain ⟨hqlt, ⟨y, hy, hyb⟩, hc⟩ := select_layer_some n S q1 q false hs
      refine ⟨by omega, fun _ => hqlt, ?_⟩
      rintro ⟨hpq, hqe⟩
      have hd := (down_getElem? n S q y hy).2
      rw [hyb] at hd
      have m1 := down_mono n S false hpq
      have m2 := down_mono n S false (show q + 1 ≤ e by omega)
      have hq1e : down n S false q = q1 := by simp [down, hc]
      exact hno.2 ⟨by omega, by omega⟩
    · rw [hb] at hq hih
      have l1 := down_le n S true pos
      have e0 : add64 ((S.take pos).countP (sel n true)) (S.filter (sel n false)).length
          = down n S true pos := by
        simp only [down, if_true] at l1 ⊢
        rw [add64_eq (by omega), Nat.add_comm]
      simp only [Bool.not_true, Bool.false_eq_true, if_false] at hq
      rw [e0] at hq
      obtain ⟨q1, hq1, hs⟩ := Option.bind_eq_some.1 hq
      obtain ⟨hq64, hno⟩ := hih q1 hq1
      obtain ⟨hqlt, ⟨y, hy, hyb⟩, hc⟩ := select_layer_some n S _ q true hs
      refine ⟨by omega, fun _ => hqlt, ?_⟩
      rintro ⟨hpq, hqe⟩
      have hd := (down_getElem? n S q y hy).2
      rw [hyb] at hd
      have m1 := down_mono n S true hpq
      have m2 := down_mono n S true (show q + 1 ≤ e by omega)
      have l2 := down_le n S true (q + 1)
      have hq1e : down n S true q = q1 := by
        simp only [down, if_true] at hd l2 ⊢
        rw [hc] at hd ⊢
        unfold sub64 at hd ⊢
        rw [two64_eq] at *
        omega
      exact hno.2 ⟨by omega, by omega⟩

/-- C14: on the matrix built from `T` (values below `2^64 - 1`), for every value
`v < sigma` and every `r` not smaller than the number of occurrences of `v` in
`T`, `Select(r, v)` does not return a position: the descent through the layers
succeeds, and the call fails in a layer's bit-select, which is handed a rank
outside its range. -/
theorem Select_out_of_range (T : List Nat) (hT : ∀ x ∈ T, x < 2 ^ 64 - 1)
    (hlen : T.length < 2 ^ 64) (v r : Nat) (hv : v < (buildFrom T).Dim)
    (hr : T.count v ≤ r) (hr64 : r < 2 ^ 64) :
    (∃ p, selectPos (buildFrom T) v (buildFrom T).blen 0 0 = some p) ∧
      (buildFrom T).Select r v = none := by
  have h := layersAt_buildFrom T hlen
  have hmod := buildFrom_mod T hT
  have hv2 : v < 2 ^ (buildFrom T).blen := Nat.lt_trans hv (dim_lt_pow T)
  have hne : (buildFrom T).blen ≠ 0 := by
    intro h0
    rw [h0] at hv2
    have hd : (buildFrom T).dim = 0 := by
      have := dim_lt_pow T
      rw [h0] at this
      omega
    have : v < (buildFrom T).dim := hv
    omega
  refine ⟨selectPos_spec _ v _ 0 T 0 h (Nat.zero_le _), ?_⟩
  cases hs : (buildFrom T).Select r v with
  | none => rfl
  | some q =>
    exfalso
    have hc : (slice T 0 T.length).countP (fun y => y % 2 ^ (buildFrom T).blen ==
        v % 2 ^ (buildFrom T).blen) ≤ r := by
      rw [slice_zero, List.take_length,
        countP_mod_eq_count T T _ v hmod (fun x hx => hx), Nat.mod_eq_of_lt hv2]
      exact hr
    obtain ⟨_, h2, h3⟩ := selectHelper_out (buildFrom T) (buildFrom T).blen 0 T 0 T.length r v h
      (Nat.zero_le _) (Nat.le_refl _) hr64 hc q hs
    exact h3 ⟨Nat.zero_le q, h2 hne⟩

/-- Witness of `Select_out_of_range` on `[5, 2, 5, 1, 5]`, value 2 and rank 1. -/
theorem Select_out_of_range_witness :
    (∃ p, selectPos (buildFrom [5, 2, 5, 1, 5]) 2 (buildFrom [5, 2, 5, 1, 5]).blen 0 0
        = some p) ∧
      (buildFrom [5, 2, 5, 1, 5]).Select 1 2 = none :=
  Select_out_of_range [5, 2, 5, 1, 5] (by decide) (by decide) 2 1 (by decide) (by decide)
    (by decide)

/-! ## The builder's buffer across `Build` -/

theorem array_set_ne (h : Heap) (a b : Nat) (x : List Nat) (hab : a ≠ b) :
    Heap.array (h.set b x) a = Heap.array h a := by
  unfold Heap.array
  rw [List.getElem?_set_ne (Ne.symm hab)]

theorem array_set_self (h : Heap) (b : Nat) (x : List Nat) (hb : b < h.length) :
    Heap.array (h.set b x) b = x := by
  unfold Heap.array
  rw [List.getElem?_set_self hb]
  rfl

theorem array_append_lt (h : Heap) (a : Nat) (x : List Nat) (ha : a < h.length) :
    Heap.array (h ++ [x]) a = Heap.array h a := by
  unfold Heap.array
  rw [List.getElem?_append_left ha]

theorem array_append_self (h : Heap) (x : List Nat) :
    Heap.array (h ++ [x]) h.length = x := by
  unfold Heap.array
  rw [List.getElem?_append_right (Nat.le_refl _)]
  simp

theorem take_set_self (l : List Nat) (n v : Nat) : (l.set n v).take n = l.take n := by
  induction l generalizing n with
  | nil => simp
  | cons x xs ih =>
    cases n with
    | zero => simp
    | succ k => simp [ih]

theorem goAppend_spec (grow : Nat → Nat → Nat) (h : Heap) (s : Slice) (v : Nat)
    (hs : s.WF h) :
    (goAppend grow h s v).2.WF (goAppend grow h s v).1 ∧
      Heap.elems (goAppend grow h s v).1 (goAppend grow h s v).2 = Heap.elems h s ++ [v] ∧
      h.length ≤ (goAppend grow h s v).1.length ∧
      (∀ a, a ≠ s.arr → a < h.length →
        Heap.array (goAppend grow h s v).1 a = Heap.array h a) ∧
      ((goAppend grow h s v).2.arr = s.arr ∨ (goAppend grow h s v).2.arr = h.length) := by
  obtain ⟨h1, h2, h3⟩ := hs
  unfold goAppend
  by_cases hc : s.len < s.cap
  · simp only [if_pos hc]
    refine ⟨⟨by simpa using h1, by dsimp only; omega, ?_⟩, ?_, by simp, ?_, by simp⟩
    · rw [array_set_self h _ _ h1, List.length_set]; exact h3
    · unfold Heap.elems
      simp only []
      rw [array_set_self h _ _ h1, List.take_succ,
        List.getElem?_set_self (by omega), take_set_self]
      rfl
    · intro a ha _
      exact array_set_ne h a s.arr _ ha
  · simp only [if_neg hc]
    refine ⟨⟨by simp, Nat.le_max_left _ _, ?_⟩, ?_, by simp, ?_, by simp⟩
    · rw [array_append_self]
      simp only [List.length_append, List.length_take, List.length_cons, List.length_replicate]
      have := Nat.le_max_left (s.len + 1) (grow s.cap (s.len + 1))
      omega
    · unfold Heap.elems
      simp only []
      rw [array_append_self]
      have hl : ((Heap.array h s.arr).take s.len).length = s.len := by
        rw [List.length_take]; omega
      rw [List.take_append_eq_append_take, hl, List.take_of_length_le (by omega)]
      simp
    · intro a _ ha
      exact array_append_lt h a _ ha

theorem goAppend_frame (grow : Nat → Nat → Nat) (h : Heap) (s t : Slice) (v : Nat)
    (hs : s.WF h) (ht : t.WF h) (hne : t.arr ≠ s.arr) :
    t.WF (goAppend grow h s v).1 ∧ Heap.elems (goAppend grow h s v).1 t = Heap.elems h t := by
  obtain ⟨_, _, h3, h4, _⟩ := goAppend_spec grow h s v hs
  have ha := h4 t.arr hne ht.1
  refine ⟨⟨by have := ht.1; omega, ht.2.1, by rw [ha]; exact ht.2.2⟩, ?_⟩
  unfold Heap.elems
  rw [ha]

theorem elems_length (h : Heap) (s : Slice) (hs : s.WF h) : (Heap.elems h s).length = s.len := by
  unfold Heap.elems
  rw [List.length_take]
  have := hs.2.1
  have := hs.2.2
  omega

theorem read_eq (h : Heap) (s : Slice) (i : Nat) (hs : s.WF h) (hi : i < s.len) :
    ∃ val, Heap.read h s i = some val ∧
      (Heap.elems h s).drop i = val :: (Heap.elems h s).drop (i + 1) := by
  have hl := elems_length h s hs
  have hi2 : i < (Heap.elems h s).length := by omega
  refine ⟨(Heap.elems h s)[i], ?_, (List.getElem_cons_drop _ i hi2).symm⟩
  unfold Heap.read
  rw [if_pos hi]
  have : (Heap.elems h s)[i]? = some (Heap.elems h s)[i] := List.getElem?_eq_getElem hi2
  rw [← this]
  unfold Heap.elems
  rw [List.getElem?_take_of_lt hi]

theorem filterLoop_spec (grow : Nat → Nat → Nat) (vals : Slice) (depth N : Nat)
    (hv : vals.arr < N) :
    ∀ (n i : Nat) (h : Heap) (nz no : Slice) (rsd : RSDic),
      N ≤ h.length → vals.WF h → i + n = vals.len → nz.WF h → no.WF h →
      N ≤ nz.arr → N ≤ no.arr → nz.arr ≠ no.arr →
      ∃ h2 nz2 no2 rsd2,
        onHeap.filterLoop grow vals depth n i h nz no rsd = some (h2, nz2, no2, rsd2) ∧
        (∀ a, a < N → Heap.array h2 a = Heap.array h a) ∧ h.length ≤ h2.length ∧
        nz2.WF h2 ∧ no2.WF h2 ∧ N ≤ nz2.arr ∧ N ≤ no2.arr ∧ nz2.arr ≠ no2.arr ∧
        Heap.elems h2 nz2
          = Heap.elems h nz ++ ((Heap.elems h vals).drop i).filter (sel depth false) ∧
        Heap.elems h2 no2
          = Heap.elems h no ++ ((Heap.elems h vals).drop i).filter (sel depth true) ∧
        rsd2.bits = rsd.bits ++ ((Heap.elems h vals).drop i).map (bitOf depth) := by
  intro n
  induction n with
  | zero =>
    intro i h nz no rsd hN hvw hin hnz hno h1 h2 h3
    have hd : (Heap.elems h vals).drop i = [] := by
      apply List.drop_of_length_le
      rw [elems_length h vals hvw]
      omega
    refine ⟨h, nz, no, rsd, rfl, fun _ _ => rfl, Nat.le_refl _, hnz, hno, h1, h2, h3, ?_, ?_, ?_⟩
    <;> simp [hd]
  | succ k ih =>
    intro i h nz no rsd hN hvw hin hnz hno h1 h2 h3
    obtain ⟨val, hread, hdrop⟩ := read_eq h vals i hvw (by omega)
    have hbit : (((val >>> depth) &&& 1) == 1) = bitOf depth val := rfl
    unfold onHeap.filterLoop
    simp only [hread, hbit, Option.bind_eq_bind, Option.some_bind]
    cases hb : bitOf depth val
    · simp only [Bool.false_eq_true, if_false]
      obtain ⟨a1, a2, a3, a4, a5⟩ := goAppend_spec grow h nz val hnz
      obtain ⟨b1, b2⟩ := goAppend_frame grow h nz no val hnz hno (Ne.symm h3)
      obtain ⟨c1, c2⟩ := goAppend_frame grow h nz vals val hnz hvw (by omega)
      have hnz1 : N ≤ (goAppend grow h nz val).2.arr := by
        rcases a5 with e | e <;> rw [e] <;> omega
      have hne1 : (goAppend grow h nz val).2.arr ≠ no.arr := by
        have := hno.1
        rcases a5 with e | e <;> rw [e] <;> omega
      obtain ⟨h2', nz2, no2, rsd2, e0, e1, e2, e3, e4, e5, e6, e7, e8, e9, e10⟩ :=
        ih (i + 1) (goAppend grow h nz val).1 (goAppend grow h nz val).2 no
          (rsd.PushBack false) (by omega) c1 (by omega) a1 b1 hnz1 h2 hne1
      refine ⟨h2', nz2, no2, rsd2, e0, ?_, by omega, e3, e4, e5, e6, e7, ?_, ?_, ?_⟩
      · intro a ha
        rw [e1 a ha, a4 a (by omega) (by omega)]
      · rw [e8, a2, c2, hdrop]
        simp [List.filter_cons, sel, hb]
      · rw [e9, b2, c2, hdrop]
        simp [List.filter_cons, sel, hb]
      · rw [e10, c2, hdrop]
        simp [RSDic.PushBack, hb]
    · simp only [if_true]
      obtain ⟨a1, a2, a3, a4, a5⟩ := goAppend_spec grow h no val hno
      obtain ⟨b1, b2⟩ := goAppend_frame grow h no nz val hno hnz h3
      obtain ⟨c1, c2⟩ := goAppend_frame grow h no vals val hno hvw (by omega)
      have hno1 : N ≤ (goAppend grow h no val).2.arr := by
        rcases a5 with e | e <;> rw [e] <;> omega
      have hne1 : nz.arr ≠ (goAppend grow h no val).2.arr := by
        have := hnz.1
        rcases a5 with e | e <;> rw [e] <;> omega
      obtain ⟨h2', nz2, no2, rsd2, e0, e1, e2, e3, e4, e5, e6, e7, e8, e9, e10⟩ :=
        ih (i + 1) (goAppend grow h no val).1 nz (goAppend grow h no val).2
          (rsd.PushBack true) (by omega) c1 (by omega) b1 a1 h1 hno1 hne1
      refine ⟨h2', nz2, no2, rsd2, e0, ?_, by omega, e3, e4, e5, e6, e7, ?_, ?_, ?_⟩
      · intro a ha
        rw [e1 a ha, a4 a (by omega) (by omega)]
      · rw [e8, b2, c2, hdrop]
        simp [List.filter_cons, sel, hb]
      · rw [e9, a2, c2, hdrop]
        simp [List.filter_cons, sel, hb]
      · rw [e10, c2, hdrop]
        simp [RSDic.PushBack, hb]

theorem wf_of_array_eq (h h2 : Heap) (s : Slice) (hs : s.WF h) (hl : h.length ≤ h2.length)
    (ha : Heap.array h2 s.arr = Heap.array h s.arr) :
    s.WF h2 ∧ Heap.elems h2 s = Heap.elems h s := by
  refine ⟨⟨by have := hs.1; omega, hs.2.1, by rw [ha]; exact hs.2.2⟩, ?_⟩
  unfold Heap.elems
  rw [ha]

theorem filter_heap_spec (grow : Nat → Nat → Nat) (vals : Slice) (depth N : Nat)
    (hv : vals.arr < N) (h : Heap) (nz no : Slice) (rsd : RSDic) (hN : N ≤ h.length)
    (hvw : vals.WF h) (hnz : nz.WF h) (hno : no.WF h) (h1 : N ≤ nz.arr) (h2 : N ≤ no.arr)
    (h3 : nz.arr ≠ no.arr) :
    ∃ h2 nz2 no2 rsd2,
      onHeap.filter grow h vals depth nz no rsd = some (h2, nz2, no2, rsd2) ∧
      (∀ a, a < N → Heap.array h2 a = Heap.array h a) ∧ h.length ≤ h2.length ∧
      nz2.WF h2 ∧ no2.WF h2 ∧ N ≤ nz2.arr ∧ N ≤ no2.arr ∧ nz2.arr ≠ no2.arr ∧
      Heap.elems h2 nz2 = Heap.elems h nz ++ (Heap.elems h vals).filter (sel depth false) ∧
      Heap.elems h2 no2 = Heap.elems h no ++ (Heap.elems h vals).filter (sel depth true) ∧
      rsd2.bits = rsd.bits ++ (Heap.elems h vals).map (bitOf depth) := by
  have := filterLoop_spec grow vals depth N hv vals.len 0 h nz no rsd hN hvw (by omega)
    hnz hno h1 h2 h3
  simpa [onHeap.filter] using this

theorem buildLoop_heap_spec (grow : Nat → Nat → Nat) (blen : Nat) :
    ∀ (fuel depth : Nat) (h : Heap) (zeros ones : Slice), zeros.WF h → ones.WF h →
      ∃ h2, onHeap.buildLoop grow blen fuel depth h zeros ones
          = some (h2, buildLoop blen fuel depth (Heap.elems h zeros) (Heap.elems h ones)) ∧
        (∀ a, a < h.length → Heap.array h2 a = Heap.array h a) ∧ h.length ≤ h2.length := by
  intro fuel
  induction fuel with
  | zero =>
    intro depth h zeros ones _ _
    exact ⟨h, rfl, fun _ _ => rfl, Nat.le_refl _⟩
  | succ k ih =>
    intro depth h zeros ones hz ho
    have hA : ∀ a, a < h.length → Heap.array (h ++ [[]] ++ [[]]) a = Heap.array h a := by
      intro a ha
      rw [array_append_lt _ a _ (by simp; omega), array_append_lt _ a _ ha]
    have hlenA : h.length ≤ (h ++ [[]] ++ [([] : List Nat)]).length := by simp
    obtain ⟨hz1, hze⟩ := wf_of_array_eq h _ zeros hz hlenA (hA _ hz.1)
    obtain ⟨ho1, hoe⟩ := wf_of_array_eq h _ ones ho hlenA (hA _ ho.1)
    have hnz : (Slice.mk h.length 0 0).WF (h ++ [[]] ++ [[]]) := by
      refine ⟨by simp, Nat.le_refl _, ?_⟩
      show (Heap.array (h ++ [[]] ++ [[]]) h.length).length = 0
      rw [array_append_lt _ _ _ (by simp), array_append_self]
      rfl
    have hno : (Slice.mk (h.length + 1) 0 0).WF (h ++ [[]] ++ [[]]) := by
      refine ⟨by simp, Nat.le_refl _, ?_⟩
      show (Heap.array (h ++ [[]] ++ [[]]) (h.length + 1)).length = 0
      have e : h.length + 1 = (h ++ [([] : List Nat)]).length := by simp
      rw [e, array_append_self]
      rfl
    have hnze : Heap.elems (h ++ [[]] ++ [[]]) (Slice.mk h.length 0 0) = [] := by
      simp [Heap.elems]
    have hnoe : Heap.elems (h ++ [[]] ++ [[]]) (Slice.mk (h.length + 1) 0 0) = [] := by
      simp [Heap.elems]
    obtain ⟨h3, nz3, no3, rsd3, f0, f1, f2, f3, f4, f5, f6, f7, f8, f9, f10⟩ :=
      filter_heap_spec grow zeros (sub64 (sub64 blen depth) 1) h.length hz.1
        (h ++ [[]] ++ [[]]) (Slice.mk h.length 0 0) (Slice.mk (h.length + 1) 0 0) RSDic.New
        hlenA hz1 hnz hno (Nat.le_refl _) (Nat.le_succ _) (by simp)
    obtain ⟨ho3, hoe3⟩ := wf_of_array_eq _ h3 ones ho1 f2 (f1 _ ho.1)
    obtain ⟨h4, nz4, no4, rsd4, g0, g1, g2, g3, g4, g5, g6, g7, g8, g9, g10⟩ :=
      filter_heap_spec grow ones (sub64 (sub64 blen depth) 1) h.length ho.1
        h3 nz3 no3 rsd3 (by omega) ho3 f3 f4 f5 f6 f7
    obtain ⟨h5, i0, i1, i2⟩ := ih (add64 depth 1) h4 nz4 no4 g3 g4
    have hb : rsd4.bits = RSDic.New.bits
        ++ List.map (bitOf (sub64 (sub64 blen depth) 1)) (Heap.elems h zeros)
        ++ List.map (bitOf (sub64 (sub64 blen depth) 1)) (Heap.elems h ones) := by
      rw [g10, f10, hoe3, hoe, hze]
    have hr : rsd4 = RSDic.mk (RSDic.New.bits
        ++ List.map (bitOf (sub64 (sub64 blen depth) 1)) (Heap.elems h zeros)
        ++ List.map (bitOf (sub64 (sub64 blen depth) 1)) (Heap.elems h ones)) := by
      calc rsd4 = RSDic.mk rsd4.bits := rfl
        _ = _ := by rw [hb]
    have hpure : buildLoop blen (k + 1) depth (Heap.elems h zeros) (Heap.elems h ones)
        = rsd4 :: buildLoop blen k (add64 depth 1) (Heap.elems h4 nz4) (Heap.elems h4 no4) := by
      rw [buildLoop]
      simp only [filter_eq]
      rw [g8, g9, f8, f9, hnze, hnoe, hoe3, hoe, hze, hr]
    refine ⟨h5, ?_, ?_, by omega⟩
    · rw [hpure]
      unfold onHeap.buildLoop
      simp only [makeSlice, List.length_append, List.length_singleton, f0, g0, i0,
        Option.bind_eq_bind, Option.some_bind, Option.pure_def]
    · intro a ha
      rw [i1 a (by omega), g1 a ha, f1 a ha, hA a ha]

theorem mk_Build (T : List Nat) : (waveletMatrixBuilder.mk T).Build = buildFrom T := by
  unfold buildFrom
  congr 1
  cases hT : List.foldl waveletMatrixBuilder.PushBack NewBuilder T with
  | mk vals =>
    have := foldl_PushBack T NewBuilder
    rw [hT] at this
    simp only [NewBuilder, List.nil_append] at this
    rw [this]

theorem Build_heap_spec (grow : Nat → Nat → Nat) (wmb : onHeap.waveletMatrixBuilder)
    (hw : wmb.vals.WF wmb.heap) :
    ∃ h2, onHeap.Build grow wmb
        = some (⟨h2, wmb.vals⟩, buildFrom (Heap.elems wmb.heap wmb.vals)) ∧
      (∀ a, a < wmb.heap.length → Heap.array h2 a = Heap.array wmb.heap a) ∧
      wmb.heap.length ≤ h2.length := by
  have hA : ∀ a, a < wmb.heap.length → Heap.array (wmb.heap ++ [[]]) a = Heap.array wmb.heap a :=
    fun a ha => array_append_lt _ a _ ha
  obtain ⟨hz1, hze⟩ := wf_of_array_eq wmb.heap (wmb.heap ++ [[]]) wmb.vals hw (by simp)
    (hA _ hw.1)
  have ho : (Slice.mk wmb.heap.length 0 0).WF (wmb.heap ++ [[]]) := by
    refine ⟨by simp, Nat.le_refl _, ?_⟩
    show (Heap.array (wmb.heap ++ [[]]) wmb.heap.length).length = 0
    rw [array_append_self]
    rfl
  have hoe : Heap.elems (wmb.heap ++ [[]]) (Slice.mk wmb.heap.length 0 0) = [] := by
    simp [Heap.elems]
  obtain ⟨h2, e0, e1, e2⟩ := buildLoop_heap_spec grow
    (getBinaryLen (getDim (Heap.elems wmb.heap wmb.vals)))
    (getBinaryLen (getDim (Heap.elems wmb.heap wmb.vals))) 0 (wmb.heap ++ [[]]) wmb.vals
    (Slice.mk wmb.heap.length 0 0) hz1 ho
  refine ⟨h2, ?_, ?_, ?_⟩
  · unfold onHeap.Build
    simp only [makeSlice, e0, Option.bind_eq_bind, Option.some_bind, Option.pure_def]
    rw [hze, hoe, ← mk_Build]
    unfold waveletMatrixBuilder.Build
    simp only [elems_length _ _ hw]
  · intro a ha
    rw [e1 a (by simp; omega), hA a ha]
  · have : wmb.heap.length ≤ (wmb.heap ++ [([] : List Nat)]).length := by simp
    omega

theorem PushBack_heap_spec (grow : Nat → Nat → Nat) (wmb : onHeap.waveletMatrixBuilder)
    (val : Nat) (hw : wmb.vals.WF wmb.heap) :
    (onHeap.PushBack grow wmb val).vals.WF (onHeap.PushBack grow wmb val).heap ∧
      Heap.elems (onHeap.PushBack grow wmb val).heap (onHeap.PushBack grow wmb val).vals
        = Heap.elems wmb.heap wmb.vals ++ [val] := by
  obtain ⟨a1, a2, _⟩ := goAppend_spec grow wmb.heap wmb.vals val hw
  exact ⟨a1, a2⟩

theorem foldl_PushBack_heap (grow : Nat → Nat → Nat) (more : List Nat) :
    ∀ wmb : onHeap.waveletMatrixBuilder, wmb.vals.WF wmb.heap →
      (more.foldl (onHeap.PushBack grow) wmb).vals.WF
          (more.foldl (onHeap.PushBack grow) wmb).heap ∧
        Heap.elems (more.foldl (onHeap.PushBack grow) wmb).heap
            (more.foldl (onHeap.PushBack grow) wmb).vals
          = Heap.elems wmb.heap wmb.vals ++ more := by
  induction more with
  | nil => intro wmb hw; exact ⟨hw, by simp⟩
  | cons x xs ih =>
    intro wmb hw
    obtain ⟨p1, p2⟩ := PushBack_heap_spec grow wmb x hw
    obtain ⟨q1, q2⟩ := ih (onHeap.PushBack grow wmb x) p1
    refine ⟨q1, ?_⟩
    rw [List.foldl_cons, q2, p2, List.append_assoc]
    rfl

/-- C20: on a heap of slices, `Build` leaves the builder's value buffer as it
found it: the slice header of `vals` and its elements after `Build` equal those
before, because every append of `filter` goes to an array allocated during the
call. Hence two calls of `Build` in a row return the same matrix, the one built
from the buffer; and after further `PushBack`s the next `Build` returns the
matrix of the earlier values followed by the pushed ones. -/
theorem Build_keeps_buffer (grow : Nat → Nat → Nat) (wmb : onHeap.waveletMatrixBuilder)
    (hw : wmb.vals.WF wmb.heap) :
    ∃ wmb1 wm, onHeap.Build grow wmb = some (wmb1, wm) ∧
      wmb1.vals = wmb.vals ∧
      Heap.elems wmb1.heap wmb1.vals = Heap.elems wmb.heap wmb.vals ∧
      (∀ a, a < wmb.heap.length → Heap.array wmb1.heap a = Heap.array wmb.heap a) ∧
      wm = buildFrom (Heap.elems wmb.heap wmb.vals) ∧
      (∃ wmb2, onHeap.Build grow wmb1 = some (wmb2, wm)) ∧
      ∀ more : List Nat, ∃ wmb3,
        onHeap.Build grow (more.foldl (onHeap.PushBack grow) wmb1)
          = some (wmb3, buildFrom (Heap.elems wmb.heap wmb.vals ++ more)) := by
  obtain ⟨h2, e0, e1, e2⟩ := Build_heap_spec grow wmb hw
  obtain ⟨w1, e3⟩ := wf_of_array_eq wmb.heap h2 wmb.vals hw e2 (e1 _ hw.1)
  refine ⟨⟨h2, wmb.vals⟩, _, e0, rfl, e3, e1, rfl, ?_, ?_⟩
  · obtain ⟨h3, f0, _, _⟩ := Build_heap_spec grow ⟨h2, wmb.vals⟩ w1
    refine ⟨⟨h3, wmb.vals⟩, ?_⟩
    rw [f0]
    simp only [e3]
  · intro more
    obtain ⟨q1, q2⟩ := foldl_PushBack_heap grow more ⟨h2, wmb.vals⟩ w1
    obtain ⟨h3, f0, _, _⟩ := Build_heap_spec grow _ q1
    refine ⟨⟨h3, (more.foldl (onHeap.PushBack grow) ⟨h2, wmb.vals⟩).vals⟩, ?_⟩
    rw [f0, q2]
    simp only [e3]

/-- Witness of `Build_keeps_buffer` for the builder into which 5, 2, 5, 1 were
pushed, with a runtime that doubles the capacity. -/
theorem Build_keeps_buffer_witness :
    ∃ wmb1 wm,
      onHeap.Build (fun _ n => 2 * n)
          ([5, 2, 5, 1].foldl (onHeap.PushBack (fun _ n => 2 * n)) onHeap.NewBuilder)
        = some (wmb1, wm) ∧
      wmb1.vals = ([5, 2, 5, 1].foldl (onHeap.PushBack (fun _ n => 2 * n))
        onHeap.NewBuilder).vals ∧
      Heap.elems wmb1.heap wmb1.vals = [5, 2, 5, 1] :=
  let ⟨wmb1, wm, h1, h2, h3, _⟩ := Build_keeps_buffer (fun _ n => 2 * n)
    ([5, 2, 5, 1].foldl (onHeap.PushBack (fun _ n => 2 * n)) onHeap.NewBuilder) (by decide)
  ⟨wmb1, wm, h1, h2, h3⟩

end wavelettree
